import Mathlib

/-!
# Go client generator of the RDL tools: resource-to-method compiler

A shallow embedding of `rdl/go-client.go` (generation of the Go client for an
RDL schema), of the helper functions that the generated client carries in
`clientTemplate`, and of `camelSnakeToKebab` and `javaGenerationRootPath` of
`rdl/java-util.go`.

* Generation-time text is a Lean `String`; the functions below build the same
  text as the Go functions of the same name, statement by statement.
* Functions of other files and libraries that the generator calls (`goType`,
  `goName`, `goMethodName`, `capitalize`, `rdl.StatusCode`, the type registry,
  `strings.ToLower`, the `%q` verb of `fmt`) are fields of `Deps`: the
  theorems hold for all of them, under the hypotheses that they state.
* A Go slice can be `nil` or empty-but-allocated, and the generator tests
  `r.Alternatives == nil` and `r.Outputs != nil`; both fields are therefore
  `Option (List _)`, `none` standing for `nil`.
* Run-time strings of the emitted client are byte sequences (`GoString`), as in
  Go, where `s[1:]` removes one byte.
* The order in which Go visits the entries of the map `headers` is the argument
  `order` of `goMethodBody`; an `error` is `Option String`, `none` for `nil`.
* The emitted status dispatch is read as a list of statements (`Switch`), whose
  rendering is proved to be the emitted text, and the URL expression as a list
  of tokens (`Tok`), whose rendering is proved to be the text of `explodeURL`.
-/

namespace GoClient

/-! ## Data model (`rdl.Resource` and its parts, as far as the generator reads them) -/

/-- A default value of an Input (`interface{}` in Go), by dynamic type.  Floats,
booleans and enum members are carried by their printed form. -/
inductive Literal where
  | str (v : String)
  | int32 (v : Int)
  | int16 (v : Int)
  | int8 (v : Int)
  | int64 (v : Int)
  | float64 (g : String)
  | float32 (g : String)
  | other (v : String)
  deriving DecidableEq, Repr

/-- Mirror of `rdl.ResourceInput`. -/
structure ResourceInput where
  Name : String
  Type_ : String
  Optional : Bool := false
  Default : Option Literal := none
  PathParam : Bool := false
  QueryParam : String := ""
  Header : String := ""
  deriving DecidableEq, Repr

/-- Mirror of `rdl.ResourceOutput`. -/
structure ResourceOutput where
  Name : String
  Type_ : String
  Header : String
  deriving DecidableEq, Repr

/-- Mirror of `rdl.Resource`.  `Alternatives` and `Outputs` are slices that the
generator compares with `nil`. -/
structure Resource where
  Type_ : String
  Method : String
  Path : String
  Inputs : List ResourceInput := []
  Expected : String := "OK"
  Alternatives : Option (List String) := none
  Outputs : Option (List ResourceOutput) := none
  deriving DecidableEq, Repr

/-- What the generator calls outside `go-client.go`. -/
structure Deps where
  /-- The function `goType(reg, typeName, optional, items, keys, precise, reference)`. -/
  goType : String → Bool → String → String → Bool → Bool → String
  /-- The function `goName(name)`. -/
  goName : String → String
  /-- The function `goMethodName(reg, r, precise)`: method name and parameter declarations. -/
  goMethodName : Resource → Bool → String × List String
  /-- The function `capitalize(text)`. -/
  capitalize : String → String
  /-- The library function `rdl.StatusCode(symbol)`. -/
  statusCode : String → String
  /-- The registry query `reg.IsArrayTypeName(typeName)`. -/
  isArrayTypeName : String → Bool
  /-- The registry query `reg.BaseTypeName(typeName)`. -/
  baseTypeName : String → String
  /-- The library function `strings.ToLower`. -/
  toLower : String → String
  /-- The rendering of a string by `fmt.Sprintf("%q", v)`. -/
  quote : String → String

/-! ## Text helpers (Go's `strings` package on generation-time text) -/

/-- The function `strings.Join(elems, sep)`. -/
def join (sep : String) : List String → String
  | [] => ""
  | [a] => a
  | a :: b :: rest => a ++ sep ++ join sep (b :: rest)

/-- Concatenation of a list of texts. -/
def concat : List String → String
  | [] => ""
  | a :: l => a ++ concat l

/-- The function `strings.Replace(s, old, new, -1)` on the characters of `s`, for
a non-empty `old` (every call of the generator has `old = "{" + name + "}"`):
the non-overlapping occurrences of `old`, found from the left, become `new`.
The first argument counts the characters of a match still to be skipped. -/
def replaceAux (old new : List Char) : Nat → List Char → List Char
  | _, [] => []
  | skip + 1, _ :: cs => replaceAux old new skip cs
  | 0, c :: cs =>
    if old.isPrefixOf (c :: cs) then new ++ replaceAux old new (old.length - 1) cs
    else c :: replaceAux old new 0 cs

/-- The function `strings.Replace(s, old, new, -1)`. -/
def replaceAll (s old new : String) : String :=
  ⟨replaceAux old.data new.data 0 s.data⟩

/-- The function `strings.HasSuffix(s, suffix)`. -/
def hasSuffix (s suffix : String) : Bool :=
  suffix.data.isSuffixOf s.data

/-- The slice `s[0 : len(s)-n]`, used where the last `n` bytes are ASCII. -/
def dropRight (s : String) (n : Nat) : String :=
  ⟨s.data.take (s.data.length - n)⟩

/-- A slice that is `nil` is ranged over as the empty list. -/
def rangeOf {α : Type} : Option (List α) → List α
  | none => []
  | some l => l

/-! ## `goMethodSignature` -/

/-- The local `returnSpec` of `goMethodSignature` at the end of the function. -/
def returnSpec (d : Deps) (r : Resource) (precise : Bool) : String :=
  let noContent := r.Expected == "NO_CONTENT" && r.Alternatives.isNone
  let returnSpec := "error"
  if !noContent then
    let gtype := d.goType r.Type_ false "" "" precise true
    let returnSpec := "(" ++ gtype
    let returnSpec :=
      if r.Outputs.isSome then
        (rangeOf r.Outputs).foldl
          (fun acc o => acc ++ (", " ++ d.goType o.Type_ false "" "" precise true)) returnSpec
      else returnSpec
    returnSpec ++ ", error)"
  else returnSpec

/-- The function `goMethodSignature(reg, r, precise)`. -/
def goMethodSignature (d : Deps) (r : Resource) (precise : Bool) : String :=
  let returnSpec := returnSpec d r precise
  let (methName, params) := d.goMethodName r precise
  d.capitalize methName ++ "(" ++ join ", " params ++ ") " ++ returnSpec

/-! ## `goLiteral` -/

/-- The function `goLiteral(lit, baseType)`; `%q` is `Deps.quote`, `%d` is the
decimal rendering, and a float, a boolean or an enum member is carried by its
printed form. -/
def goLiteral (d : Deps) (lit : Option Literal) (baseType : String) : String :=
  match lit with
  | none =>
    if baseType == "Bool" then "false"
    else if baseType == "Int32" || baseType == "Int64" || baseType == "Int16"
        || baseType == "Int8" then "0"
    else if baseType == "Float64" || baseType == "Float32" then "0.0"
    else "\"\""
  | some (.str v) => d.quote v
  | some (.int32 v) => toString v
  | some (.int16 v) => toString v
  | some (.int8 v) => toString v
  | some (.int64 v) => toString v
  | some (.float64 g) => g
  | some (.float32 g) => g
  | some (.other v) => v

/-! ## `explodeURL` -/

/-- The locals `path`, `params` and `delim` of `explodeURL`. -/
structure URLState where
  path : String
  params : String
  delim : String
  deriving DecidableEq, Repr

/-- The text `item` that `explodeURL` builds for a query parameter (the body of
the branch `v.QueryParam != ""`). -/
def queryItem (d : Deps) (v : ResourceInput) : String :=
  let gk := d.goName v.Name
  let qp := v.QueryParam
  if d.isArrayTypeName v.Type_ then
    "encodeListParam(\"" ++ qp ++ "\"," ++ gk ++ ")"
  else
    let baseType := d.baseTypeName v.Type_
    if v.Optional && baseType != "String" then
      "encodeOptional" ++ baseType ++ "Param(\"" ++ qp ++ "\", " ++ gk ++ ")"
    else
      let dflt := goLiteral d v.Default baseType
      if baseType == "Enum" then
        let dflt := "\"" ++ dflt ++ "\""
        "encodeStringParam(\"" ++ qp ++ "\", " ++ gk ++ ".String(), " ++ dflt ++ ")"
      else
        "encode" ++ baseType ++ "Param(\"" ++ qp ++ "\", " ++ d.toLower baseType
          ++ "(" ++ gk ++ "), " ++ dflt ++ ")"

/-- The replacement of the placeholder of a path parameter in `path`. -/
def pathStep (d : Deps) (path : String) (v : ResourceInput) : String :=
  let k := v.Name
  let gk := d.goName k
  if v.Type_ == "String" then
    replaceAll path ("\x7b" ++ k ++ "\x7d") ("\" + " ++ gk ++ " + \"")
  else
    replaceAll path ("\x7b" ++ k ++ "\x7d") ("\" + fmt.Sprint(" ++ gk ++ ") + \"")

/-- One iteration of the loop over `r.Inputs` in `explodeURL`. -/
def explodeStep (d : Deps) (st : URLState) (v : ResourceInput) : URLState :=
  if v.PathParam then
    { st with path := pathStep d st.path v }
  else if v.QueryParam != "" then
    let item := queryItem d v
    { st with params := st.params ++ st.delim ++ item, delim := ", " }
  else st

/-- The opening quote and the end of the path expression: a trailing ` + "` is
cut off, otherwise the literal is closed. -/
def closePath (path : String) : String :=
  let path := "\"" ++ path
  if hasSuffix path " + \"" then dropRight path 4
  else path ++ "\""

/-- The end of `explodeURL`, after the loop over the Inputs. -/
def explodeFinish (st : URLState) : String :=
  let path := closePath st.path
  if st.params != "" then path ++ " + encodeParams(" ++ st.params ++ ")"
  else path

/-- The function `explodeURL(reg, r)`. -/
def explodeURL (d : Deps) (r : Resource) : String :=
  explodeFinish (r.Inputs.foldl (explodeStep d) { path := r.Path, params := "", delim := "" })

/-! ## `goMethodBody` -/

/-- The local `noContent` of `goMethodSignature` and `goMethodBody`. -/
def noContent (r : Resource) : Bool :=
  r.Expected == "NO_CONTENT" && r.Alternatives.isNone

/-- The local `errorReturn` of `goMethodBody` after the loop over the Outputs. -/
def errorReturn (r : Resource) : String :=
  let errorReturn := if noContent r then "return err" else "return nil, err"
  if r.Outputs.isSome then
    let eret := "return nil"
    let eret := (rangeOf r.Outputs).foldl (fun eret _ => eret ++ ", \"\"") eret
    eret ++ ", err"
  else errorReturn

/-- The local `dataReturn` of `goMethodBody` after the loop over the Outputs. -/
def dataReturn (d : Deps) (r : Resource) : String :=
  let dataReturn := if noContent r then "return nil" else "return data, nil"
  if r.Outputs.isSome then
    let dret := "return data"
    let dret := (rangeOf r.Outputs).foldl (fun dret o => dret ++ (", " ++ d.goName o.Name)) dret
    dret ++ ", nil"
  else dataReturn

/-- The assignment `m[k] = v` on a map kept as an association list. -/
def mapSet (m : List (String × String)) (k v : String) : List (String × String) :=
  if m.any (fun e => e.1 == k) then m.map (fun e => if e.1 == k then (k, v) else e)
  else m ++ [(k, v)]

/-- The map `headers` of `goMethodBody`: header name to the name of the Input. -/
def headersOf (r : Resource) : List (String × String) :=
  r.Inputs.foldl (fun headers i => if i.Header != "" then mapSet headers i.Header i.Name
    else headers) []

/-- The text emitted for the map `headers`; `order` is the order in which
`range` visits the entries of the map in this run. -/
def headersBlock (d : Deps) (order : List (String × String) → List (String × String))
    (headers : List (String × String)) : String :=
  if headers.length > 0 then
    "\theaders := map[string]string\x7b\n"
      ++ (order headers).foldl (fun s e => s ++ ("\t\t" ++ d.quote e.1 ++ ": " ++ e.2 ++ ",\n")) ""
      ++ "\t\x7d\n"
  else ""

/-- The local `bodyParam`: the first Input that is neither path, query nor header. -/
def bodyParam : List ResourceInput → String
  | [] => "?"
  | i :: rest =>
    if !i.PathParam && i.QueryParam == "" && i.Header == "" then i.Name
    else bodyParam rest

/-- The statements of the HTTP call (the `switch method`), with the resulting `assign`. -/
def requestBlock (method httpArg errorReturn : String) (inputs : List ResourceInput) :
    String × String :=
  if method == "Get" || method == "Delete" then
    ("\tresp, err := client.http" ++ method ++ "(" ++ httpArg ++ ")\n", ":=")
  else if method == "Put" || method == "Post" || method == "Patch" then
    ("\tcontentBytes, err := json.Marshal(" ++ bodyParam inputs ++ ")\n"
      ++ "\tif err != nil \x7b\n\t\t" ++ errorReturn ++ "\n\t\x7d\n"
      ++ "\tresp, err := client.http" ++ method ++ "(" ++ httpArg ++ ", contentBytes)\n", "=")
  else ("", ":=")

/-- The local `couldBeNoContent` after the loop over the alternatives. -/
def couldBeNoContent (r : Resource) : Bool :=
  (rangeOf r.Alternatives).foldl (fun b e => if "NO_CONTENT" == e then true else b)
    ("NO_CONTENT" == r.Expected)

/-- The local `couldBeNotModified` after the loop over the alternatives. -/
def couldBeNotModified (r : Resource) : Bool :=
  (rangeOf r.Alternatives).foldl (fun b e => if "NOT_MODIFIED" == e then true else b)
    ("NOT_MODIFIED" == r.Expected)

/-- The local `expected` after the loop: the labels of the `case`. -/
def expectedCodes (d : Deps) (r : Resource) : List String :=
  (rangeOf r.Alternatives).foldl (fun expected e => expected ++ [d.statusCode e])
    [d.statusCode r.Expected]

/-- The local `tmp`: the condition of the `if` around `json.Unmarshal`. -/
def guardText (couldBeNoContent couldBeNotModified : Bool) : String :=
  let tmp := ""
  let tmp := if couldBeNoContent then "204 != resp.StatusCode" else tmp
  if couldBeNotModified then
    let tmp := if tmp != "" then tmp ++ " || " else tmp
    tmp ++ "304 != resp.StatusCode"
  else tmp

/-- The statements that declare and decode `data` in the success branch. -/
def decodeBlock (r : Resource) : String :=
  let errorReturn := errorReturn r
  if couldBeNoContent r || couldBeNotModified r then
    if !noContent r then
      "\t\tvar data *" ++ r.Type_ ++ "\n"
        ++ "\t\tif " ++ guardText (couldBeNoContent r) (couldBeNotModified r) ++ " \x7b\n"
        ++ "\t\t\terr = json.Unmarshal(contentBytes, &data)\n"
        ++ "\t\t\tif err != nil \x7b\n\t\t\t\t" ++ errorReturn ++ "\n\t\t\t\x7d\n"
        ++ "\t\t\x7d\n"
    else ""
  else
    "\t\tvar data *" ++ r.Type_ ++ "\n"
      ++ "\t\terr = json.Unmarshal(contentBytes, &data)\n"
      ++ "\t\tif err != nil \x7b\n\t\t\t" ++ errorReturn ++ "\n\t\t\x7d\n"

/-- The statement that reads one Output from the response headers. -/
def outputLine (d : Deps) (precise : Bool) (o : ResourceOutput) : String :=
  let otype := d.goType o.Type_ false "" "" precise true
  let header := "resp.Header.Get(rdl.FoldHttpHeaderName(" ++ d.quote o.Header ++ "))"
  let header := if otype != "string" then otype ++ "(" ++ header ++ ")" else header
  "\t\t" ++ d.goName o.Name ++ " := " ++ header ++ "\n"

/-- The statements that define the output headers. -/
def outputsBlock (d : Deps) (r : Resource) (precise : Bool) : String :=
  if r.Outputs.isSome then
    (rangeOf r.Outputs).foldl (fun s o => s ++ outputLine d precise o) ""
  else ""

/-- The `default:` branch. -/
def defaultBlock (r : Resource) : String :=
  "\tdefault:\n"
    ++ "\t\tvar errobj rdl.ResourceError\n"
    ++ "\t\tjson.Unmarshal(contentBytes, &errobj)\n"
    ++ "\t\tif errobj.Code == 0 \x7b\n"
    ++ "\t\t\terrobj.Code = resp.StatusCode\n"
    ++ "\t\t\x7d\n"
    ++ "\t\tif errobj.Message == \"\" \x7b\n"
    ++ "\t\t\terrobj.Message = string(contentBytes)\n"
    ++ "\t\t\x7d\n"
    ++ "\t\t" ++ errorReturn r ++ "obj\n"
    ++ "\t\x7d"

/-- The text from `switch resp.StatusCode {` to the end of the method body. -/
def switchBlock (d : Deps) (r : Resource) (precise : Bool) : String :=
  "\tswitch resp.StatusCode \x7b\n"
    ++ "\tcase " ++ join ", " (expectedCodes d r) ++ ":\n"
    ++ decodeBlock r
    ++ outputsBlock d r precise
    ++ "\t\t" ++ dataReturn d r ++ "\n"
    ++ defaultBlock r

/-- The function `goMethodBody(reg, r, precise)`; `order` is the order in which
`range` visits the entries of the map `headers` in this run. -/
def goMethodBody (d : Deps) (order : List (String × String) → List (String × String))
    (r : Resource) (precise : Bool) : String :=
  let errorReturn := errorReturn r
  let headers := headersOf r
  let httpArg := if headers.length > 0 then "url, headers" else "url, nil"
  let s := headersBlock d order headers
  let url := explodeURL d r
  let s := s ++ "\turl := client.URL + " ++ url ++ "\n"
  let method := d.capitalize (d.toLower r.Method)
  let (request, assign) := requestBlock method httpArg errorReturn r.Inputs
  let s := s ++ request
  let s := s ++ "\tif err != nil \x7b\n\t\t" ++ errorReturn ++ "\n\t\x7d\n"
  let s := s ++ "\tcontentBytes, err " ++ assign ++ " ioutil.ReadAll(resp.Body)\n"
  let s := s ++ "\tresp.Body.Close()\n"
  let s := s ++ "\tif err != nil \x7b\n\t\t" ++ errorReturn ++ "\n\t\x7d\n"
  s ++ switchBlock d r precise

/-! ## The helpers of the emitted client (`clientTemplate`)

Run-time values of the emitted Go code.  A Go string is a sequence of bytes; the
sized integers are integers of their range, and `int` is taken at 64 bits. -/

/-- A Go string at run time: its bytes. -/
abbrev GoString := List UInt8

/-- The bytes of a string literal of the emitted code (UTF-8). -/
def lit (s : String) : GoString :=
  s.data.flatMap String.utf8EncodeChar

/-- Conversion to a signed integer type of `w` bits (wrap-around). -/
def wrapSigned (w : Nat) (v : Int) : Int :=
  (v + 2 ^ (w - 1)) % 2 ^ w - 2 ^ (w - 1)

/-- The conversion `int(v)`. -/
def toInt (v : Int) : Int := wrapSigned 64 v

/-- The functions `strconv.Itoa(i)` and `strconv.FormatInt(i, 10)`: base 10, a
leading `-` for a negative number. -/
def itoa (i : Int) : GoString :=
  match i with
  | Int.ofNat n => lit (Nat.repr n)
  | Int.negSucc n => lit "-" ++ lit (Nat.repr (n + 1))

/-- The verb `%v` of `fmt` on a `bool`. -/
def formatBool (b : Bool) : GoString :=
  if b then lit "true" else lit "false"

/-- The emitted `encodeBoolParam(name, b, def)`. -/
def encodeBoolParam (name : GoString) (b dflt : Bool) : GoString :=
  if b == dflt then lit ""
  else lit "&" ++ name ++ lit "=" ++ formatBool b

/-- The emitted `encodeInt8Param(name, i, def)`. -/
def encodeInt8Param (name : GoString) (i dflt : Int) : GoString :=
  if i == dflt then lit ""
  else lit "&" ++ name ++ lit "=" ++ itoa (toInt i)

/-- The emitted `encodeInt16Param(name, i, def)`. -/
def encodeInt16Param (name : GoString) (i dflt : Int) : GoString :=
  if i == dflt then lit ""
  else lit "&" ++ name ++ lit "=" ++ itoa (toInt i)

/-- The emitted `encodeInt32Param(name, i, def)`. -/
def encodeInt32Param (name : GoString) (i dflt : Int) : GoString :=
  if i == dflt then lit ""
  else lit "&" ++ name ++ lit "=" ++ itoa (toInt i)

/-- The emitted `encodeInt64Param(name, i, def)`. -/
def encodeInt64Param (name : GoString) (i dflt : Int) : GoString :=
  if i == dflt then lit ""
  else lit "&" ++ name ++ lit "=" ++ itoa i

/-- The emitted `encodeOptionalEnumParam(name, e)`; the `interface{}` argument is
`nil` or a value, given by its `%v` text. -/
def encodeOptionalEnumParam (name : GoString) (e : Option GoString) : GoString :=
  match e with
  | none => lit "\"\""
  | some v => lit "&" ++ name ++ lit "=" ++ v

/-- The emitted `encodeOptionalBoolParam(name, b)`. -/
def encodeOptionalBoolParam (name : GoString) (b : Option Bool) : GoString :=
  match b with
  | none => lit ""
  | some v => lit "&" ++ name ++ lit "=" ++ formatBool v

/-- The emitted `encodeOptionalInt32Param(name, i)`. -/
def encodeOptionalInt32Param (name : GoString) (i : Option Int) : GoString :=
  match i with
  | none => lit ""
  | some v => lit "&" ++ name ++ lit "=" ++ itoa (toInt v)

/-- The emitted `encodeOptionalInt64Param(name, i)`. -/
def encodeOptionalInt64Param (name : GoString) (i : Option Int) : GoString :=
  match i with
  | none => lit ""
  | some v => lit "&" ++ name ++ lit "=" ++ itoa (toInt v)

/-- The emitted `encodeParams(objs...)`; `strings.Join(objs, "")` is the
concatenation and `s[1:]` drops the first byte. -/
def encodeParams (objs : List GoString) : GoString :=
  let s := objs.flatten
  if s == lit "" then s
  else lit "?" ++ s.drop 1

/-! ## The emitted status dispatch: statements and their execution

The text from `switch resp.StatusCode {` on is the rendering of a `Switch`
(theorem `switchBlock_eq_render`); `Switch.run` executes it on a response. -/

/-- A condition of the emitted code on the response status. -/
inductive Cond where
  /-- The comparison `<code> != resp.StatusCode`. -/
  | statusNe (code : Nat)
  /-- The disjunction `a || b`. -/
  | or (a b : Cond)
  deriving DecidableEq, Repr

/-- The Go text of a condition. -/
def Cond.render : Cond → String
  | .statusNe code => toString code ++ " != resp.StatusCode"
  | .or a b => a.render ++ " || " ++ b.render

/-- The value of a condition when `resp.StatusCode` is `status`. -/
def Cond.eval (status : Int) : Cond → Bool
  | .statusNe code => (code : Int) != status
  | .or a b => a.eval status || b.eval status

/-- The condition that `goMethodBody` builds in `tmp`, when it builds one. -/
def guardCond (couldBeNoContent couldBeNotModified : Bool) : Option Cond :=
  match couldBeNoContent, couldBeNotModified with
  | true, true => some (.or (.statusNe 204) (.statusNe 304))
  | true, false => some (.statusNe 204)
  | false, true => some (.statusNe 304)
  | false, false => none

/-- The statements of the two branches of the emitted `switch`. -/
inductive Stmt where
  /-- The declaration `var data *T`. -/
  | varData (typ : String)
  /-- The pair `err = json.Unmarshal(contentBytes, &data)` and
  `if err != nil { onError }`. -/
  | unmarshal (onError : String)
  /-- The same pair inside `if cond { ... }`. -/
  | guardedUnmarshal (cond : Cond) (onError : String)
  /-- The definitions of the output-header variables, as text. -/
  | outputs (text : String)
  /-- A `return` statement, as text. -/
  | ret (text : String)
  /-- The declaration `var errobj rdl.ResourceError`. -/
  | varErrobj
  /-- The call `json.Unmarshal(contentBytes, &errobj)`, its error dropped. -/
  | unmarshalErrobj
  /-- The statement `if errobj.Code == 0 { errobj.Code = resp.StatusCode }`. -/
  | defaultCode
  /-- The statement `if errobj.Message == "" { errobj.Message = string(contentBytes) }`. -/
  | defaultMessage
  deriving DecidableEq, Repr

/-- The Go text of a statement, as `goMethodBody` writes it. -/
def Stmt.render : Stmt → String
  | .varData typ => "\t\tvar data *" ++ typ ++ "\n"
  | .unmarshal onError =>
    "\t\terr = json.Unmarshal(contentBytes, &data)\n"
      ++ "\t\tif err != nil \x7b\n\t\t\t" ++ onError ++ "\n\t\t\x7d\n"
  | .guardedUnmarshal cond onError =>
    "\t\tif " ++ cond.render ++ " \x7b\n"
      ++ "\t\t\terr = json.Unmarshal(contentBytes, &data)\n"
      ++ "\t\t\tif err != nil \x7b\n\t\t\t\t" ++ onError ++ "\n\t\t\t\x7d\n"
      ++ "\t\t\x7d\n"
  | .outputs text => text
  | .ret text => "\t\t" ++ text ++ "\n"
  | .varErrobj => "\t\tvar errobj rdl.ResourceError\n"
  | .unmarshalErrobj => "\t\tjson.Unmarshal(contentBytes, &errobj)\n"
  | .defaultCode =>
    "\t\tif errobj.Code == 0 \x7b\n" ++ "\t\t\terrobj.Code = resp.StatusCode\n" ++ "\t\t\x7d\n"
  | .defaultMessage =>
    "\t\tif errobj.Message == \"\" \x7b\n" ++ "\t\t\terrobj.Message = string(contentBytes)\n"
      ++ "\t\t\x7d\n"

/-- The emitted `switch resp.StatusCode`: one `case` with its labels, and `default`. -/
structure Switch where
  labels : List String
  success : List Stmt
  dflt : List Stmt
  deriving DecidableEq, Repr

/-- The Go text of the `switch`. -/
def Switch.render (sw : Switch) : String :=
  "\tswitch resp.StatusCode \x7b\n"
    ++ "\tcase " ++ join ", " sw.labels ++ ":\n"
    ++ concat (sw.success.map Stmt.render)
    ++ "\tdefault:\n"
    ++ concat (sw.dflt.map Stmt.render)
    ++ "\t\x7d"

/-- The statements of the success branch that declare and decode `data`. -/
def decodeStmts (r : Resource) : List Stmt :=
  match guardCond (couldBeNoContent r) (couldBeNotModified r) with
  | some cond =>
    if !noContent r then [.varData r.Type_, .guardedUnmarshal cond (errorReturn r)] else []
  | none => [.varData r.Type_, .unmarshal (errorReturn r)]

/-- The `switch` that `goMethodBody` emits for a Resource. -/
def methodSwitch (d : Deps) (r : Resource) (precise : Bool) : Switch where
  labels := expectedCodes d r
  success := decodeStmts r ++ [.outputs (outputsBlock d r precise), .ret (dataReturn d r)]
  dflt := [.varErrobj, .unmarshalErrobj, .defaultCode, .defaultMessage,
    .ret (errorReturn r ++ "obj")]

/-- The run-time value `rdl.ResourceError`. -/
structure ResourceError where
  Code : Int
  Message : GoString
  deriving DecidableEq, Repr

/-- The behaviour of `encoding/json` on a response body. -/
structure Json where
  /-- Whether `json.Unmarshal(contentBytes, &data)` returns no error. -/
  decodesData : GoString → Bool
  /-- The value of `errobj` after `json.Unmarshal(contentBytes, &errobj)`, from
  its value before. -/
  errorFields : GoString → ResourceError → ResourceError

/-- The variables of the emitted method that the dispatch reads and writes. -/
structure Machine where
  status : Int
  contentBytes : GoString
  unmarshalled : Bool := false
  errobj : Option ResourceError := none
  deriving DecidableEq, Repr

/-- The end of a run: the `return` statement reached, whether
`json.Unmarshal(contentBytes, &data)` was called, and `errobj` if declared. -/
structure Returned where
  stmt : String
  unmarshalled : Bool
  errobj : Option ResourceError
  deriving DecidableEq, Repr

/-- Execution of the statements of a branch; `none` when no `return` is reached
or a variable is used before its declaration. -/
def exec (json : Json) : Machine → List Stmt → Option Returned
  | _, [] => none
  | m, .varData _ :: rest => exec json m rest
  | m, .unmarshal onError :: rest =>
    if json.decodesData m.contentBytes then exec json { m with unmarshalled := true } rest
    else some { stmt := onError, unmarshalled := true, errobj := m.errobj }
  | m, .guardedUnmarshal cond onError :: rest =>
    if cond.eval m.status then
      if json.decodesData m.contentBytes then exec json { m with unmarshalled := true } rest
      else some { stmt := onError, unmarshalled := true, errobj := m.errobj }
    else exec json m rest
  | m, .outputs _ :: rest => exec json m rest
  | m, .ret text :: _ => some { stmt := text, unmarshalled := m.unmarshalled, errobj := m.errobj }
  | m, .varErrobj :: rest => exec json { m with errobj := some { Code := 0, Message := [] } } rest
  | m, .unmarshalErrobj :: rest =>
    match m.errobj with
    | none => none
    | some e => exec json { m with errobj := some (json.errorFields m.contentBytes e) } rest
  | m, .defaultCode :: rest =>
    match m.errobj with
    | none => none
    | some e =>
      exec json { m with errobj := some (if e.Code == 0 then { e with Code := m.status } else e) }
        rest
  | m, .defaultMessage :: rest =>
    match m.errobj with
    | none => none
    | some e =>
      exec json
        { m with errobj := some (if e.Message == [] then { e with Message := m.contentBytes }
                                 else e) } rest

/-- The value of a decimal digit. -/
def digitValue (c : Char) : Option Nat :=
  if '0' ≤ c ∧ c ≤ '9' then some (c.toNat - '0'.toNat) else none

/-- The number written by decimal digits, after the digits read so far. -/
def parseDigits : List Char → Nat → Option Nat
  | [], acc => some acc
  | c :: cs, acc =>
    match digitValue c with
    | none => none
    | some v => parseDigits cs (10 * acc + v)

/-- The value of a `case` label that is a decimal integer literal. -/
def caseValue (label : String) : Option Int :=
  match label.data with
  | [] => none
  | ['0'] => some 0
  | '0' :: _ => none
  | cs => (parseDigits cs 0).map Int.ofNat

/-- Whether `status` selects the `case` of the switch. -/
def Switch.selects (sw : Switch) (status : Int) : Bool :=
  sw.labels.any (fun l => caseValue l == some status)

/-- Execution of the `switch` on a response with the given status and body. -/
def Switch.run (sw : Switch) (json : Json) (status : Int) (contentBytes : GoString) :
    Option Returned :=
  let m : Machine := { status := status, contentBytes := contentBytes }
  if sw.selects status then exec json m sw.success else exec json m sw.dflt

/-! ## A concrete environment, for evaluating the definitions on examples -/

/-- Upper-cases an ASCII letter. -/
def upperAscii (c : Char) : Char :=
  if 'a' ≤ c ∧ c ≤ 'z' then Char.ofNat (c.toNat - 32) else c

/-- Lower-cases an ASCII letter. -/
def lowerAscii (c : Char) : Char :=
  if 'A' ≤ c ∧ c ≤ 'Z' then Char.ofNat (c.toNat + 32) else c

/-- A status-code table for the symbols used in the examples. -/
def exampleStatusCode (sym : String) : String :=
  if sym = "OK" then "200"
  else if sym = "CREATED" then "201"
  else if sym = "NO_CONTENT" then "204"
  else if sym = "NOT_MODIFIED" then "304"
  else if sym = "NOT_FOUND" then "404"
  else sym

/-- An environment in which type and parameter names are used as they are. -/
def exampleDeps : Deps where
  goType := fun t _ _ _ _ _ => if t = "String" then "string" else "*" ++ t
  goName := fun n => n
  goMethodName := fun r _ =>
    (⟨r.Method.data.map lowerAscii⟩ ++ r.Type_, r.Inputs.map (fun i => i.Name ++ " " ++ i.Type_))
  capitalize := fun s =>
    match s.data with
    | [] => s
    | c :: cs => ⟨upperAscii c :: cs⟩
  statusCode := exampleStatusCode
  isArrayTypeName := fun t => t.data.take 5 == "Array".data
  baseTypeName := fun t => t
  toLower := fun s => ⟨s.data.map lowerAscii⟩
  quote := fun s => "\"" ++ s ++ "\""

/-- A JSON behaviour for the examples: every body decodes into `data`, and no
body sets a field of the error object. -/
def exampleJson : Json where
  decodesData := fun _ => true
  errorFields := fun _ e => e

/-- A Resource for which both 204 and 304 are possible: expected `OK`, with the
alternatives `NO_CONTENT` and `NOT_MODIFIED`. -/
def bothResource : Resource :=
  { Type_ := "Item", Method := "GET", Path := "/item/\x7bid\x7d",
    Inputs := [{ Name := "id", Type_ := "String", PathParam := true }],
    Expected := "OK", Alternatives := some ["NO_CONTENT", "NOT_MODIFIED"] }

/-- A Resource that expects `NO_CONTENT` and whose list of alternatives is
allocated but empty. -/
def emptyAlternativesResource : Resource :=
  { Type_ := "Item", Method := "DELETE", Path := "/item/\x7bid\x7d",
    Inputs := [{ Name := "id", Type_ := "String", PathParam := true }],
    Expected := "NO_CONTENT", Alternatives := some [] }

/-- A Resource that expects `OK` with the single alternative `NOT_MODIFIED`. -/
def conditionalGetResource : Resource :=
  { Type_ := "Item", Method := "GET", Path := "/item/\x7bid\x7d",
    Inputs := [{ Name := "id", Type_ := "String", PathParam := true },
               { Name := "ifNewer", Type_ := "String", Header := "If-Modified-Since" }],
    Expected := "OK", Alternatives := some ["NOT_MODIFIED"],
    Outputs := some [{ Name := "tag", Type_ := "String", Header := "ETag" }] }

/-- The values before the error in an error return of the method: `nil` for the
data value unless the method returns the error alone, and `""` for each Output. -/
def zeroValues (r : Resource) : List String :=
  match r.Outputs with
  | some outs => "nil" :: outs.map (fun _ => "\"\"")
  | none => if noContent r then [] else ["nil"]

/-- Whether `explodeURL` treats an Input as a query parameter. -/
def isQueryInput (v : ResourceInput) : Bool :=
  !v.PathParam && v.QueryParam != ""

/-- Whether an Input takes part in the URL: a path or a query parameter.  Every
other Input is carried by a header or is a candidate for the body. -/
def isURLInput (v : ResourceInput) : Bool :=
  v.PathParam || v.QueryParam != ""

/-- A Resource with two query parameters around a header and a body Input. -/
def searchResource : Resource :=
  { Type_ := "ItemList", Method := "POST", Path := "/item/\x7bid\x7d/search",
    Inputs := [{ Name := "id", Type_ := "String", PathParam := true },
               { Name := "trace", Type_ := "String", Header := "X-Trace" },
               { Name := "skip", Type_ := "Int32", QueryParam := "offset",
                 Default := some (.int32 0) },
               { Name := "query", Type_ := "Query" },
               { Name := "limit", Type_ := "Int32", QueryParam := "count", Optional := true }],
    Expected := "OK" }

/-- The Resource `searchResource` without its header and body Inputs. -/
def searchResourceURLOnly : Resource :=
  { searchResource with Inputs := searchResource.Inputs.filter isURLInput }

/-! ## The URL expression as tokens, and the substitution of the placeholders -/

/-- A token of the URL expression: a string literal or an identifier. -/
inductive Tok where
  | lit (s : List Char)
  | ident (x : String)
  deriving DecidableEq, Repr

/-- The Go text of a token; the characters of a literal stand between quotes. -/
def Tok.render : Tok → String
  | .lit s => "\"" ++ String.mk s ++ "\""
  | .ident x => x

/-- The Go text of the concatenation of the tokens. -/
def renderExpr (toks : List Tok) : String :=
  join " + " (toks.map Tok.render)

/-- The bytes of a text (UTF-8). -/
def litChars (cs : List Char) : GoString :=
  cs.flatMap String.utf8EncodeChar

/-- The value of a token when the identifiers have the values `env`. -/
def Tok.eval (env : String → GoString) : Tok → GoString
  | .lit s => litChars s
  | .ident x => env x

/-- The value of the concatenation of the tokens. -/
def evalExpr (env : String → GoString) (toks : List Tok) : GoString :=
  (toks.map (Tok.eval env)).flatten

/-- The placeholder of a parameter in a path template. -/
def placeholder (name : String) : List Char :=
  '{' :: (name.data ++ ['}'])

/-- The path template with every placeholder of a parameter of `params` (name
and value) replaced by the value, read from the left; the other characters give
their bytes.  The first argument counts the characters of a placeholder still
to be skipped. -/
def substitute (params : List (String × GoString)) : Nat → List Char → GoString
  | _, [] => []
  | skip + 1, _ :: cs => substitute params skip cs
  | 0, c :: cs =>
    match params.find? (fun p => (placeholder p.1).isPrefixOf (c :: cs)) with
    | some p => p.2 ++ substitute params (p.1.data.length + 1) cs
    | none => String.utf8EncodeChar c ++ substitute params 0 cs

/-- The names of the path parameters of a Resource with the values that `env`
gives to their Go identifiers. -/
def pathParamValues (d : Deps) (env : String → GoString) (r : Resource) :
    List (String × GoString) :=
  (r.Inputs.filter (fun v => v.PathParam)).map (fun v => (v.Name, env (d.goName v.Name)))

/-- Whether a name is an identifier: letters, digits and underscores, not empty. -/
def isIdentifier (name : String) : Bool :=
  name.data.all (fun c => c.isAlphanum || c == '_') && !name.data.isEmpty

/-- The chunks of a text between the occurrences of `old`, found from the left:
the first chunk and the chunks after each occurrence.  The first argument counts
the characters of an occurrence still to be skipped. -/
def splitAux (old : List Char) : Nat → List Char → List Char × List (List Char)
  | _, [] => ([], [])
  | skip + 1, _ :: cs => splitAux old skip cs
  | 0, c :: cs =>
    if old.isPrefixOf (c :: cs) then
      ([], (splitAux old (old.length - 1) cs).1 :: (splitAux old (old.length - 1) cs).2)
    else (c :: (splitAux old 0 cs).1, (splitAux old 0 cs).2)

/-- A text cut at placeholders: a first chunk, and the names of parameters each
followed by a chunk. -/
abbrev Pieces := List Char × List (String × List Char)

/-- The text of the pieces when the name `k` stands for `f k`. -/
def weave (f : String → List Char) (p : Pieces) : List Char :=
  p.1 ++ (p.2.map (fun q => f q.1 ++ q.2)).flatten

/-- The text that `explodeURL` puts in the place of a placeholder. -/
def identSegment (d : Deps) (name : String) : List Char :=
  "\" + ".data ++ (d.goName name).data ++ " + \"".data

/-- A chunk cut at the placeholders of `name`. -/
def refineChunk (name : String) (chunk : List Char) : Pieces :=
  ((splitAux (placeholder name) 0 chunk).1,
    (splitAux (placeholder name) 0 chunk).2.map (fun t => (name, t)))

/-- The pieces with every chunk cut at the placeholders of `name`. -/
def refine (name : String) (p : Pieces) : Pieces :=
  ((refineChunk name p.1).1,
    (refineChunk name p.1).2
      ++ p.2.flatMap (fun q => (q.1, (refineChunk name q.2).1) :: (refineChunk name q.2).2))

/-- The tokens of the pieces: the chunks as literals, the names as the Go
identifiers, without the last literal when it is empty and follows an identifier. -/
def piecesTokens (d : Deps) (p : Pieces) : List Tok :=
  let all := Tok.lit p.1 :: p.2.flatMap (fun q => [Tok.ident (d.goName q.1), Tok.lit q.2])
  match p.2.getLast? with
  | some (_, []) => all.dropLast
  | _ => all

/-- The tokens of the URL expression of a Resource without query parameters. -/
def urlTokens (d : Deps) (r : Resource) : List Tok :=
  piecesTokens d
    ((r.Inputs.filter (fun v => v.PathParam)).foldl (fun p v => refine v.Name p) (r.Path.data, []))

/-- A Resource whose path has a placeholder at the start, two adjacent
placeholders, a repeated one and one at the end. -/
def pathResource : Resource :=
  { Type_ := "Item", Method := "GET", Path := "\x7bzone\x7d/item/\x7bid\x7d\x7brev\x7d/of/\x7bzone\x7d",
    Inputs := [{ Name := "id", Type_ := "String", PathParam := true },
               { Name := "zone", Type_ := "String", PathParam := true },
               { Name := "ifNewer", Type_ := "String", Header := "If-Modified-Since" },
               { Name := "rev", Type_ := "String", PathParam := true }],
    Expected := "OK" }

/-- Values for the identifiers of `pathResource`. -/
def pathEnv (x : String) : GoString :=
  if x = "id" then lit "42" else if x = "zone" then lit "\x7brev\x7d" else if x = "rev" then lit "\"7\""
  else []

/-! ## Definitions for the request body and the headers -/

/-- Whether an Input is a candidate for the body: neither a path parameter, nor
a query parameter, nor a header (the test of the loop that sets `bodyParam`). -/
def isBodyCandidate (i : ResourceInput) : Bool :=
  !i.PathParam && i.QueryParam == "" && i.Header == ""

/-- The text before the statements of the HTTP call in the method body: the map
`headers`, if any, and the statement that sets `url`. -/
def urlPrologue (d : Deps) (order : List (String × String) → List (String × String))
    (r : Resource) : String :=
  headersBlock d order (headersOf r) ++ "\turl := client.URL + " ++ explodeURL d r ++ "\n"

/-- An optional `Int32` query parameter. -/
def limitInput : ResourceInput :=
  { Name := "limit", Type_ := "Int32", QueryParam := "count", Optional := true }

/-- An order in which `range` may visit the entries of a map: some permutation
of the entries. -/
def IsMapOrder (order : List (String × String) → List (String × String)) : Prop :=
  ∀ m, (order m).Perm m

/-- The line that `goMethodBody` emits for an entry of the map `headers`. -/
def headerLine (d : Deps) (e : String × String) : String :=
  "\t\t" ++ d.quote e.1 ++ ": " ++ e.2 ++ ",\n"

/-- A Resource with two header-carried Inputs. -/
def twoHeaderResource : Resource :=
  { Type_ := "Item", Method := "GET", Path := "/item",
    Inputs := [{ Name := "ifNewer", Type_ := "String", Header := "If-Modified-Since" },
               { Name := "trace", Type_ := "String", Header := "X-Trace" }],
    Expected := "OK" }

/-! ## `GenerateGoClient` and `emitClient`

An `error` of Go is `Option String`: `none` is `nil`, `some msg` an error.  The
results of `outputWriter` and of `t.Execute` come from the file system and from
the template library; they are arguments. -/

/-- The fields of `clientGenerator` that `GenerateGoClient` and `emitClient`
read or write for the result: the name and `err`. -/
structure clientGenerator where
  name : String
  err : Option String
  deriving DecidableEq, Repr

/-- The method `emitClient`: it returns the error of `t.Execute(gen.writer,
gen.schema)`, given as `execute`, and assigns no field of `gen`. -/
def emitClient (gen : clientGenerator) (execute : Option String) :
    clientGenerator × Option String :=
  (gen, execute)

/-- The function `GenerateGoClient`; `opened` is the error returned by
`outputWriter` and `execute` the error that `t.Execute` returns in `emitClient`.
The result of the call `gen.emitClient()` is not used. -/
def GenerateGoClient (d : Deps) (schemaName : String) (opened execute : Option String) :
    Option String :=
  match opened with
  | some err => some err
  | none =>
    let gen : clientGenerator := { name := d.capitalize schemaName, err := none }
    let gen := (emitClient gen execute).1
    gen.err

/-! ## `addAuthHeader` of the emitted client -/

/-- The header of a request (`http.Header`), as the pairs of a canonical key and
a value that the calls `Header.Add` stored, in the order of the calls. -/
abbrev RequestHeader := List (GoString × GoString)

/-- The bytes that `net/textproto` accepts in the name of a header field: the
letters, the digits and the other token bytes of HTTP. -/
def validHeaderFieldByte (c : UInt8) : Bool :=
  (48 ≤ c && c ≤ 57) || (65 ≤ c && c ≤ 90) || (97 ≤ c && c ≤ 122)
    || [33, 35, 36, 37, 38, 39, 42, 43, 45, 46, 94, 95, 96, 124, 126].contains c

/-- The loop of `textproto.CanonicalMIMEHeaderKey` on a valid name: a letter at
the start or after a hyphen becomes upper case, every other letter lower case;
the first argument is `upper`. -/
def canonicalBytes : Bool → GoString → GoString
  | _, [] => []
  | upper, c :: cs =>
    let c2 : UInt8 :=
      if upper && (97 ≤ c && c ≤ 122) then c - 32
      else if !upper && (65 ≤ c && c ≤ 90) then c + 32
      else c
    c2 :: canonicalBytes (c2 == 45) cs

/-- The library function `textproto.CanonicalMIMEHeaderKey(s)`, which
`http.Header.Add` and `http.Header.Values` apply to their key: a name with a
byte that is not valid in a header field is returned unchanged. -/
def canonicalMIMEHeaderKey (s : GoString) : GoString :=
  if s.all validHeaderFieldByte then canonicalBytes true s else s

/-- The call `req.Header.Add(key, value)`: the value is stored under the
canonical form of the key. -/
def headerAdd (h : RequestHeader) (key value : GoString) : RequestHeader :=
  h ++ [(canonicalMIMEHeaderKey key, value)]

/-- The call `req.Header.Values(key)`: the values stored under the canonical
form of the key, in the order in which they were added. -/
def headerValues (h : RequestHeader) (key : GoString) : List GoString :=
  (h.filter (fun e => e.1 == canonicalMIMEHeaderKey key)).map (fun e => e.2)

/-- The credential fields of the emitted client; `none` is a `nil` pointer. -/
structure Credentials where
  CredsHeader : Option GoString
  CredsToken : Option GoString
  deriving DecidableEq, Repr

/-- The emitted `addAuthHeader(req)`, on the header of the request;
`strings.HasPrefix` is the prefix test on bytes and `[7:]` drops seven bytes. -/
def addAuthHeader (client : Credentials) (header : RequestHeader) : RequestHeader :=
  match client.CredsHeader, client.CredsToken with
  | some credsHeader, some credsToken =>
    if (lit "Cookie.").isPrefixOf credsHeader then
      headerAdd header (lit "Cookie") (credsHeader.drop 7 ++ lit "=" ++ credsToken)
    else headerAdd header credsHeader credsToken
  | _, _ => header

/-! ## Definitions for the statements on literals, return values and helpers -/

/-- Whether the characters after the opening quote are the rest of one
interpreted string literal of Go: up to the first quote that no backslash
escapes, which is the last character, with no line break before it. -/
def literalTail : List Char → Bool
  | [] => false
  | ['"'] => true
  | '"' :: _ => false
  | '\\' :: _ :: rest => literalTail rest
  | '\n' :: _ => false
  | _ :: rest => literalTail rest

/-- Whether a text is a single interpreted string literal of Go. -/
def isStringLiteral (text : String) : Bool :=
  match text.data with
  | '"' :: rest => literalTail rest
  | _ => false

/-- A required query parameter of an enum type, with no default. -/
def enumNoDefaultInput : ResourceInput :=
  { Name := "state", Type_ := "Enum", QueryParam := "st" }

/-- A required query parameter of an enum type, with the member `ACTIVE` as default. -/
def enumDefaultInput : ResourceInput :=
  { Name := "state", Type_ := "Enum", QueryParam := "st", Default := some (.other "ACTIVE") }

/-- The number of values of a `return` statement, or of entries of a return
type, written with no comma inside a value: one more than the commas. -/
def valueCount (text : String) : Nat :=
  text.data.count ',' + 1

/-- A Resource that expects `NO_CONTENT` with no alternatives and declares an Output. -/
def noContentOutputResource : Resource :=
  { Type_ := "Item", Method := "DELETE", Path := "/item/\x7bid\x7d",
    Inputs := [{ Name := "id", Type_ := "String", PathParam := true }],
    Expected := "NO_CONTENT", Alternatives := none,
    Outputs := some [{ Name := "tag", Type_ := "String", Header := "ETag" }] }

/-- The names of the functions that `clientTemplate` defines, in the order of
the template: `NewClient`, the methods of the client, the encoders. -/
def clientTemplateFunctions : List String :=
  ["NewClient", "AddCredentials", "getClient", "addAuthHeader",
   "httpGet", "httpDelete", "httpPut", "httpPost",
   "encodeStringParam", "encodeBoolParam", "encodeInt8Param", "encodeInt16Param",
   "encodeInt32Param", "encodeInt64Param", "encodeFloat32Param", "encodeFloat64Param",
   "encodeOptionalEnumParam", "encodeOptionalBoolParam", "encodeOptionalInt32Param",
   "encodeOptionalInt64Param", "encodeParams"]

/-- The methods for which `goMethodBody` emits a call of `client.http<Method>`. -/
def handledMethods : List String :=
  ["Get", "Delete", "Put", "Post", "Patch"]

/-- The base types of the claim on the encoders. -/
def encoderBaseTypes : List String :=
  ["Bool", "Int8", "Int16", "Int32", "Int64", "Float32", "Float64"]

/-- A `PATCH` Resource with an optional `Int8` query parameter. -/
def patchResource : Resource :=
  { Type_ := "Item", Method := "PATCH", Path := "/item/\x7bid\x7d",
    Inputs := [{ Name := "id", Type_ := "String", PathParam := true },
               { Name := "item", Type_ := "Item" },
               { Name := "depth", Type_ := "Int8", QueryParam := "depth", Optional := true }],
    Expected := "OK" }

/-! ## The float encoders of the emitted client

Floating-point numbers are not modelled: their comparison `==` and their
formatting by `strconv.FormatFloat(_, 'g', -1, bits)` are arguments. -/

/-- The operations of Go on a floating-point type that the encoders use. -/
structure FloatOps (F : Type) where
  /-- The comparison `i == def`. -/
  eq : F → F → Bool
  /-- The formatting `strconv.FormatFloat(i, 'g', -1, bits)`. -/
  format : F → GoString

/-- The emitted `encodeFloat32Param(name, i, def)`. -/
def encodeFloat32Param {F : Type} (ops : FloatOps F) (name : GoString) (i dflt : F) :
    GoString :=
  if ops.eq i dflt then lit ""
  else lit "&" ++ name ++ lit "=" ++ ops.format i

/-- The emitted `encodeFloat64Param(name, i, def)`. -/
def encodeFloat64Param {F : Type} (ops : FloatOps F) (name : GoString) (i dflt : F) :
    GoString :=
  if ops.eq i dflt then lit ""
  else lit "&" ++ name ++ lit "=" ++ ops.format i

/-- A required `Bool` query parameter with no default. -/
def boolNoDefaultInput : ResourceInput :=
  { Name := "all", Type_ := "Bool", QueryParam := "all" }

/-! ## `camelSnakeToKebab` and `javaGenerationRootPath` (`java-util.go`) -/

/-- The functions `unicode.IsUpper` and `unicode.ToLower`. -/
structure UnicodeOps where
  isUpper : Char → Bool
  toLower : Char → Char

/-- The two functions on ASCII; other characters are not upper case and are
their own lower case. -/
def asciiUnicode : UnicodeOps where
  isUpper := fun c => decide ('A' ≤ c ∧ c ≤ 'Z')
  toLower := lowerAscii

/-- One iteration of the loop of `camelSnakeToKebab`, on `result` and `wasLower`. -/
def kebabStep (u : UnicodeOps) (st : List Char × Bool) (c : Char) : List Char × Bool :=
  if u.isUpper c then
    let result := if st.2 then st.1 ++ ['-'] else st.1
    (result ++ [u.toLower c], false)
  else (st.1 ++ [c], true)

/-- The function `camelSnakeToKebab(name)`. -/
def camelSnakeToKebab (u : UnicodeOps) (name : String) : String :=
  let s := replaceAll name "_" "-"
  String.mk (s.data.foldl (kebabStep u) ([], false)).1

/-- The function `javaGenerationRootPath(schema, def)`, on the name and the
version of the schema. -/
def javaGenerationRootPath (u : UnicodeOps) (schemaName : String) (version : Option Int)
    (dflt : String) : String :=
  if dflt != "" then dflt
  else if schemaName != "" then
    let n := camelSnakeToKebab u schemaName
    match version with
    | some v => "/" ++ n ++ "/v" ++ toString v
    | none => "/" ++ n
  else "/"

/-! # Theorems -/

/-! ## Lemmas on text -/

theorem foldl_append_eq {α : Type} (f : α → String) (l : List α) (init : String) :
    l.foldl (fun acc o => acc ++ f o) init = init ++ concat (l.map f) := by
  induction l generalizing init with
  | nil => simp [concat]
  | cons a l ih =>
    simp only [List.foldl_cons, List.map_cons, concat]
    rw [ih, String.append_assoc]

theorem concat_append (l₁ l₂ : List String) :
    concat (l₁ ++ l₂) = concat l₁ ++ concat l₂ := by
  induction l₁ with
  | nil => simp [concat]
  | cons a l ih =>
    show a ++ concat (l ++ l₂) = a ++ concat l ++ concat l₂
    rw [ih, String.append_assoc]

theorem guardCond_render (nc nm : Bool) (c : Cond) (h : guardCond nc nm = some c) :
    c.render = guardText nc nm := by
  cases nc <;> cases nm <;> simp [guardCond] at h
  all_goals (subst h; decide)

theorem guardCond_none (nc nm : Bool) (h : guardCond nc nm = none) : (nc || nm) = false := by
  cases nc <;> cases nm <;> simp_all [guardCond]

theorem guardCond_some (nc nm : Bool) (c : Cond) (h : guardCond nc nm = some c) :
    (nc || nm) = true := by
  cases nc <;> cases nm <;> simp_all [guardCond]

theorem decodeBlock_eq_render (r : Resource) :
    decodeBlock r = concat ((decodeStmts r).map Stmt.render) := by
  unfold decodeBlock decodeStmts
  cases h : guardCond (couldBeNoContent r) (couldBeNotModified r) with
  | none =>
    rw [guardCond_none _ _ h]
    simp only [concat, Stmt.render, List.map_cons, List.map_nil, Bool.false_eq_true, if_false]
    apply String.ext
    simp only [String.data_append, List.append_assoc]
    rfl
  | some c =>
    rw [guardCond_some _ _ c h]
    cases hn : noContent r
    · simp only [concat, Stmt.render, List.map_cons, List.map_nil, if_true, Bool.not_false,
        guardCond_render _ _ c h]
      apply String.ext
      simp only [String.data_append, List.append_assoc]
      rfl
    · simp [concat]

theorem switchBlock_eq_render (d : Deps) (r : Resource) (precise : Bool) :
    switchBlock d r precise = (methodSwitch d r precise).render := by
  unfold switchBlock Switch.render methodSwitch defaultBlock
  simp only [List.map_append, List.map_cons, List.map_nil, decodeBlock_eq_render]
  generalize (decodeStmts r).map Stmt.render = ds
  rw [concat_append]
  simp only [concat, Stmt.render]
  apply String.ext
  simp only [String.data_append, List.append_assoc]
  rfl

theorem goMethodBody_switch (d : Deps) (order : List (String × String) → List (String × String))
    (r : Resource) (precise : Bool) :
    ∃ pre, goMethodBody d order r precise = pre ++ (methodSwitch d r precise).render := by
  unfold goMethodBody
  simp only [switchBlock_eq_render]
  exact ⟨_, rfl⟩

set_option maxRecDepth 100000

/-! ## C1: the guard around `json.Unmarshal` -/

/-- C1 (as the code behaves): for the Resource `bothResource`, for which both 204
and 304 are possible, the emitted guard is
`204 != resp.StatusCode || 304 != resp.StatusCode`; it is true at status 204 and
at status 304, so a run on either status calls `json.Unmarshal` on the body
instead of skipping it. -/
theorem C1_guard_true_when_both_possible :
    goMethodBody exampleDeps id bothResource false
        = "\turl := client.URL + \"/item/\" + id\n"
          ++ "\tresp, err := client.httpGet(url, nil)\n"
          ++ "\tif err != nil \x7b\n\t\treturn nil, err\n\t\x7d\n"
          ++ "\tcontentBytes, err := ioutil.ReadAll(resp.Body)\n"
          ++ "\tresp.Body.Close()\n"
          ++ "\tif err != nil \x7b\n\t\treturn nil, err\n\t\x7d\n"
          ++ "\tswitch resp.StatusCode \x7b\n"
          ++ "\tcase 200, 204, 304:\n"
          ++ "\t\tvar data *Item\n"
          ++ "\t\tif 204 != resp.StatusCode || 304 != resp.StatusCode \x7b\n"
          ++ "\t\t\terr = json.Unmarshal(contentBytes, &data)\n"
          ++ "\t\t\tif err != nil \x7b\n\t\t\t\treturn nil, err\n\t\t\t\x7d\n"
          ++ "\t\t\x7d\n"
          ++ "\t\treturn data, nil\n"
          ++ "\tdefault:\n"
          ++ "\t\tvar errobj rdl.ResourceError\n"
          ++ "\t\tjson.Unmarshal(contentBytes, &errobj)\n"
          ++ "\t\tif errobj.Code == 0 \x7b\n"
          ++ "\t\t\terrobj.Code = resp.StatusCode\n"
          ++ "\t\t\x7d\n"
          ++ "\t\tif errobj.Message == \"\" \x7b\n"
          ++ "\t\t\terrobj.Message = string(contentBytes)\n"
          ++ "\t\t\x7d\n"
          ++ "\t\treturn nil, errobj\n"
          ++ "\t\x7d"
      ∧ couldBeNoContent bothResource = true ∧ couldBeNotModified bothResource = true
      ∧ noContent bothResource = false
      ∧ decodeStmts bothResource
          = [.varData "Item", .guardedUnmarshal (.or (.statusNe 204) (.statusNe 304))
              "return nil, err"]
      ∧ Stmt.render (.guardedUnmarshal (.or (.statusNe 204) (.statusNe 304)) "return nil, err")
          = "\t\tif 204 != resp.StatusCode || 304 != resp.StatusCode \x7b\n"
            ++ "\t\t\terr = json.Unmarshal(contentBytes, &data)\n"
            ++ "\t\t\tif err != nil \x7b\n\t\t\t\treturn nil, err\n\t\t\t\x7d\n\t\t\x7d\n"
      ∧ Cond.eval 204 (.or (.statusNe 204) (.statusNe 304)) = true
      ∧ Cond.eval 304 (.or (.statusNe 204) (.statusNe 304)) = true
      ∧ (methodSwitch exampleDeps bothResource false).run exampleJson 204 []
          = some { stmt := "return data, nil", unmarshalled := true, errobj := none }
      ∧ (methodSwitch exampleDeps bothResource false).run exampleJson 304 []
          = some { stmt := "return data, nil", unmarshalled := true, errobj := none } := by
  refine ⟨by decide, by decide, by decide, by decide, by decide, by decide, by decide,
    by decide, by decide, by decide⟩

/-! ## C2: the return part of the method signature -/

theorem returnSpec_eq (d : Deps) (r : Resource) (precise : Bool) :
    returnSpec d r precise
      = if r.Expected = "NO_CONTENT" ∧ r.Alternatives = none then "error"
        else "(" ++ d.goType r.Type_ false "" "" precise true
          ++ concat ((rangeOf r.Outputs).map
              (fun o => ", " ++ d.goType o.Type_ false "" "" precise true))
          ++ ", error)" := by
  unfold returnSpec
  by_cases hE : r.Expected = "NO_CONTENT"
  · cases hA : r.Alternatives with
    | none => simp [hE]
    | some alts =>
      cases hO : r.Outputs with
      | none => simp [hE, rangeOf, concat]
      | some outs => simp [hE, rangeOf, foldl_append_eq]
  · cases hO : r.Outputs with
    | none => simp [hE, rangeOf, concat]
    | some outs => simp [hE, rangeOf, foldl_append_eq]

/-- C2 (counterexample): the Resource `emptyAlternativesResource` expects
`NO_CONTENT` and has an empty list of alternatives, and the return part of its
signature is `(*Item, error)`, not `error`. -/
theorem C2_empty_alternatives_counterexample :
    emptyAlternativesResource.Expected = "NO_CONTENT"
      ∧ emptyAlternativesResource.Alternatives = some []
      ∧ goMethodSignature exampleDeps emptyAlternativesResource false
          = "DeleteItem(id String) (*Item, error)"
      ∧ returnSpec exampleDeps emptyAlternativesResource false = "(*Item, error)"
      ∧ returnSpec exampleDeps emptyAlternativesResource false ≠ "error" := by
  refine ⟨by decide, by decide, by decide, by decide, by decide⟩

/-- C2 (amended): the text of `goMethodSignature` is the capitalized method name,
the parameter list, and a return part that is exactly `error` when the expected
status is `NO_CONTENT` and the alternatives are absent (`nil`); in every other
case, an allocated empty list of alternatives included, the return part is `(`,
the primary value type, one type per declared Output in declaration order, and
`error)`. -/
theorem C2_signature_return_part (d : Deps) (r : Resource) (precise : Bool) :
    goMethodSignature d r precise
      = d.capitalize (d.goMethodName r precise).1 ++ "("
          ++ join ", " (d.goMethodName r precise).2 ++ ") "
          ++ (if r.Expected = "NO_CONTENT" ∧ r.Alternatives = none then "error"
              else "(" ++ d.goType r.Type_ false "" "" precise true
                ++ concat ((rangeOf r.Outputs).map
                    (fun o => ", " ++ d.goType o.Type_ false "" "" precise true))
                ++ ", error)") := by
  unfold goMethodSignature
  rw [returnSpec_eq]

/-! ## C3 and C4: execution of the emitted dispatch -/

theorem exec_default (json : Json) (r : Resource) (status : Int) (body : GoString) :
    exec json { status := status, contentBytes := body }
        [.varErrobj, .unmarshalErrobj, .defaultCode, .defaultMessage,
          .ret (errorReturn r ++ "obj")]
      = some { stmt := errorReturn r ++ "obj", unmarshalled := false,
               errobj := some
                 { Code := if (json.errorFields body { Code := 0, Message := [] }).Code = 0
                     then status
                     else (json.errorFields body { Code := 0, Message := [] }).Code,
                   Message := if (json.errorFields body { Code := 0, Message := [] }).Message = []
                     then body
                     else (json.errorFields body { Code := 0, Message := [] }).Message } } := by
  simp only [exec]
  generalize json.errorFields body { Code := 0, Message := [] } = e
  by_cases hc : e.Code = 0 <;> by_cases hm : e.Message = [] <;> simp [hc, hm]

/-- C3: for a Resource whose expected status is `OK` with the single alternative
`NOT_MODIFIED` (the status symbols standing for 200 and 304), the method body
ends with the rendering of `methodSwitch`, and a run of that switch: on status
304 reaches the data return without calling `json.Unmarshal`; on status 200
calls `json.Unmarshal` and reaches the data return, or the error return when
decoding fails; on status 404 takes the default branch and returns the error
object, whose `Code` is 404 when the body carries no code. -/
theorem C3_ok_with_not_modified (d : Deps)
    (order : List (String × String) → List (String × String)) (r : Resource) (precise : Bool)
    (json : Json) (body : GoString)
    (hE : r.Expected = "OK") (hA : r.Alternatives = some ["NOT_MODIFIED"])
    (h200 : d.statusCode "OK" = "200") (h304 : d.statusCode "NOT_MODIFIED" = "304") :
    (∃ pre, goMethodBody d order r precise = pre ++ (methodSwitch d r precise).render)
      ∧ (methodSwitch d r precise).run json 304 body
          = some { stmt := dataReturn d r, unmarshalled := false, errobj := none }
      ∧ (methodSwitch d r precise).run json 200 body
          = some { stmt := if json.decodesData body then dataReturn d r else errorReturn r,
                   unmarshalled := true, errobj := none }
      ∧ ((json.errorFields body { Code := 0, Message := [] }).Code = 0 →
          (methodSwitch d r precise).run json 404 body
            = some { stmt := errorReturn r ++ "obj", unmarshalled := false,
                     errobj := some
                       { Code := 404,
                         Message :=
                           if (json.errorFields body { Code := 0, Message := [] }).Message = []
                           then body
                           else (json.errorFields body { Code := 0, Message := [] }).Message } })
      := by
  have hl : (methodSwitch d r precise).labels = ["200", "304"] := by
    simp [methodSwitch, expectedCodes, hE, hA, rangeOf, h200, h304]
  have hnc : couldBeNoContent r = false := by
    simp only [couldBeNoContent, hE, hA, rangeOf]
    decide
  have hnm : couldBeNotModified r = true := by
    simp only [couldBeNotModified, hE, hA, rangeOf]
    decide
  have hno : noContent r = false := by
    simp only [noContent, hE, hA]
    decide
  have hs : (methodSwitch d r precise).success
      = [.varData r.Type_, .guardedUnmarshal (.statusNe 304) (errorReturn r),
          .outputs (outputsBlock d r precise), .ret (dataReturn d r)] := by
    simp [methodSwitch, decodeStmts, hnc, hnm, hno, guardCond]
  have h304s : (methodSwitch d r precise).selects 304 = true := by
    simp only [Switch.selects, hl]
    decide
  have h200s : (methodSwitch d r precise).selects 200 = true := by
    simp only [Switch.selects, hl]
    decide
  have h404s : (methodSwitch d r precise).selects 404 = false := by
    simp only [Switch.selects, hl]
    decide
  refine ⟨goMethodBody_switch d order r precise, ?_, ?_, ?_⟩
  · simp only [Switch.run, h304s, if_true, hs, exec, Cond.eval]
    simp
  · simp only [Switch.run, h200s, if_true, hs, exec, Cond.eval]
    by_cases hd : json.decodesData body = true <;> simp [hd]
  · intro hcode
    simp only [Switch.run, h404s]
    have hd : (methodSwitch d r precise).dflt
        = [.varErrobj, .unmarshalErrobj, .defaultCode, .defaultMessage,
            .ret (errorReturn r ++ "obj")] := rfl
    rw [hd]
    simp only [Bool.false_eq_true, if_false]
    rw [exec_default, if_pos hcode]

/-- C3 (witness): the theorem at `conditionalGetResource`, with the status table
of `exampleDeps`, a body of one byte and `exampleJson`. -/
theorem C3_ok_with_not_modified_witness :
    (∃ pre, goMethodBody exampleDeps id conditionalGetResource false
        = pre ++ (methodSwitch exampleDeps conditionalGetResource false).render)
      ∧ (methodSwitch exampleDeps conditionalGetResource false).run exampleJson 304 [123]
          = some { stmt := dataReturn exampleDeps conditionalGetResource,
                   unmarshalled := false, errobj := none }
      ∧ (methodSwitch exampleDeps conditionalGetResource false).run exampleJson 200 [123]
          = some { stmt := if exampleJson.decodesData [123]
                     then dataReturn exampleDeps conditionalGetResource
                     else errorReturn conditionalGetResource,
                   unmarshalled := true, errobj := none }
      ∧ ((exampleJson.errorFields [123] { Code := 0, Message := [] }).Code = 0 →
          (methodSwitch exampleDeps conditionalGetResource false).run exampleJson 404 [123]
            = some { stmt := errorReturn conditionalGetResource ++ "obj", unmarshalled := false,
                     errobj := some
                       { Code := 404,
                         Message :=
                           if (exampleJson.errorFields [123] { Code := 0, Message := [] }).Message
                              = []
                           then [123]
                           else (exampleJson.errorFields [123]
                                  { Code := 0, Message := [] }).Message } }) :=
  C3_ok_with_not_modified exampleDeps id conditionalGetResource false exampleJson [123]
    (by decide) (by decide) (by decide) (by decide)

/-- C4: for every Resource, status and body such that the status selects no
`case` label, a run of the emitted switch returns through the last statement of
the default branch with the error object whose `Code` is the decoded code if
that is non-zero and the response status otherwise, and whose `Message` is the
decoded message if that is non-empty and the bytes of the body otherwise,
whatever `json.Unmarshal` did with the body; and when `json.Unmarshal` leaves
the error object untouched on an empty body, an empty body gives `Code` = the
status and the empty `Message`. -/
theorem C4_default_branch_error_object (d : Deps)
    (order : List (String × String) → List (String × String)) (r : Resource) (precise : Bool)
    (json : Json) (status : Int) (body : GoString)
    (hsel : (methodSwitch d r precise).selects status = false) :
    (∃ pre, goMethodBody d order r precise = pre ++ (methodSwitch d r precise).render)
      ∧ (methodSwitch d r precise).run json status body
          = some { stmt := errorReturn r ++ "obj", unmarshalled := false,
                   errobj := some
                     { Code := if (json.errorFields body { Code := 0, Message := [] }).Code = 0
                         then status
                         else (json.errorFields body { Code := 0, Message := [] }).Code,
                       Message :=
                         if (json.errorFields body { Code := 0, Message := [] }).Message = []
                         then body
                         else (json.errorFields body { Code := 0, Message := [] }).Message } }
      ∧ (body = [] →
          json.errorFields [] { Code := 0, Message := [] } = { Code := 0, Message := [] } →
          (methodSwitch d r precise).run json status body
            = some { stmt := errorReturn r ++ "obj", unmarshalled := false,
                     errobj := some { Code := status, Message := [] } }) := by
  have hrun : (methodSwitch d r precise).run json status body
      = exec json { status := status, contentBytes := body }
          [.varErrobj, .unmarshalErrobj, .defaultCode, .defaultMessage,
            .ret (errorReturn r ++ "obj")] := by
    simp only [Switch.run, hsel, Bool.false_eq_true, if_false]
    rfl
  refine ⟨goMethodBody_switch d order r precise, ?_, ?_⟩
  · rw [hrun, exec_default]
  · intro hb hj
    subst hb
    rw [hrun, exec_default, hj]
    simp

/-- C4 (witness): the theorem at `conditionalGetResource` and status 404, with
an empty body. -/
theorem C4_default_branch_error_object_witness :
    (methodSwitch exampleDeps conditionalGetResource false).selects 404 = false
      ∧ (methodSwitch exampleDeps conditionalGetResource false).run exampleJson 404 []
          = some { stmt := "return nil, \"\", errobj", unmarshalled := false,
                   errobj := some { Code := 404, Message := [] } } :=
  ⟨by decide,
    (C4_default_branch_error_object exampleDeps id conditionalGetResource false exampleJson 404 []
      (by decide)).2.2 rfl rfl⟩

/-! ## C5: the return statement of the default branch -/

theorem join_cons_eq (sep a : String) (l : List String) :
    join sep (a :: l) = a ++ concat (l.map (fun x => sep ++ x)) := by
  induction l generalizing a with
  | nil => simp [join, concat]
  | cons b l ih =>
    show a ++ sep ++ join sep (b :: l) = a ++ concat ((b :: l).map (fun x => sep ++ x))
    rw [ih]
    simp only [List.map_cons, concat, String.append_assoc]

theorem join_snoc_append (sep a b : String) (l : List String) :
    join sep (l ++ [a ++ b]) = join sep (l ++ [a]) ++ b := by
  cases l with
  | nil => simp [join]
  | cons x l =>
    simp only [List.cons_append, join_cons_eq, List.map_append, List.map_cons, List.map_nil,
      concat_append, concat, String.append_assoc, String.append_empty]

theorem errorReturn_eq (r : Resource) :
    errorReturn r = "return " ++ join ", " (zeroValues r ++ ["err"]) := by
  unfold errorReturn zeroValues
  cases hO : r.Outputs with
  | none =>
    cases hn : noContent r
    · simp only [Option.isSome_none, Bool.false_eq_true, if_false]
      decide
    · simp only [Option.isSome_none, Bool.false_eq_true, if_false, if_true]
      decide
  | some outs =>
    simp only [Option.isSome_some, if_true, rangeOf, List.cons_append, join_cons_eq,
      List.map_append, List.map_map, List.map_cons, List.map_nil, concat_append, concat,
      foldl_append_eq (fun _ => ", \"\"")]
    apply String.ext
    simp only [String.data_append, List.append_assoc]
    rfl

theorem switchBlock_tail (d : Deps) (r : Resource) (precise : Bool) :
    ∃ pre, switchBlock d r precise = pre ++ ("\t\t" ++ (errorReturn r ++ "obj") ++ "\n" ++ "\t\x7d") := by
  refine ⟨"\tswitch resp.StatusCode \x7b\n"
    ++ "\tcase " ++ join ", " (expectedCodes d r) ++ ":\n"
    ++ decodeBlock r
    ++ outputsBlock d r precise
    ++ "\t\t" ++ dataReturn d r ++ "\n"
    ++ ("\tdefault:\n"
    ++ "\t\tvar errobj rdl.ResourceError\n"
    ++ "\t\tjson.Unmarshal(contentBytes, &errobj)\n"
    ++ "\t\tif errobj.Code == 0 \x7b\n"
    ++ "\t\t\terrobj.Code = resp.StatusCode\n"
    ++ "\t\t\x7d\n"
    ++ "\t\tif errobj.Message == \"\" \x7b\n"
    ++ "\t\t\terrobj.Message = string(contentBytes)\n"
    ++ "\t\t\x7d\n"), ?_⟩
  unfold switchBlock defaultBlock
  apply String.ext
  simp only [String.data_append, List.append_assoc]
  rfl

/-- C5: for every Resource, the ordinary error return of `goMethodBody` is
`return` followed by the zero values of the Resource and `err`; the last
statement of the default branch is the return statement with the same zero
values followed by `errobj`; and the emitted method body ends with that
statement and the closing brace of the switch. -/
theorem C5_default_branch_returns_errobj (d : Deps)
    (order : List (String × String) → List (String × String)) (r : Resource) (precise : Bool) :
    errorReturn r = "return " ++ join ", " (zeroValues r ++ ["err"])
      ∧ (methodSwitch d r precise).dflt.getLast?
          = some (.ret ("return " ++ join ", " (zeroValues r ++ ["errobj"])))
      ∧ ∃ pre, goMethodBody d order r precise
          = pre ++ ("\t\t" ++ ("return " ++ join ", " (zeroValues r ++ ["errobj"])) ++ "\n"
              ++ "\t\x7d") := by
  have hobj : errorReturn r ++ "obj" = "return " ++ join ", " (zeroValues r ++ ["errobj"]) := by
    rw [errorReturn_eq, String.append_assoc, ← join_snoc_append]
    rfl
  refine ⟨errorReturn_eq r, ?_, ?_⟩
  · simp [methodSwitch, hobj]
  · obtain ⟨pre, hpre⟩ := switchBlock_tail d r precise
    unfold goMethodBody
    simp only [hpre, hobj]
    exact ⟨_, (String.append_assoc _ _ _).symm⟩

/-! ## C7: the arguments of `encodeParams` -/

theorem queryItem_ne_empty (d : Deps) (v : ResourceInput) : queryItem d v ≠ "" := by
  intro h
  have hd := congrArg String.data h
  unfold queryItem at hd
  simp only at hd
  split at hd
  · simp [String.data_append] at hd
  · split at hd
    · simp [String.data_append] at hd
    · split at hd
      · simp [String.data_append] at hd
      · simp [String.data_append] at hd

/-- The local `params` after the loop, from its value and that of `delim` before
the items of the remaining query parameters are added. -/
theorem params_fold (d : Deps) (inputs : List ResourceInput) (st : URLState) :
    inputs.foldl (explodeStep d) st
      = { path := (inputs.filter (fun v => v.PathParam)).foldl (pathStep d) st.path,
          params := st.params
            ++ (match (inputs.filter isQueryInput).map (queryItem d) with
                | [] => ""
                | item :: rest => st.delim ++ join ", " (item :: rest)),
          delim := if (inputs.filter isQueryInput) = [] then st.delim else ", " } := by
  induction inputs generalizing st with
  | nil => simp
  | cons v rest ih =>
    rw [List.foldl_cons, ih]
    by_cases hp : v.PathParam = true
    · simp [explodeStep, hp, isQueryInput]
    · by_cases hq : v.QueryParam = ""
      · simp [explodeStep, hp, hq, isQueryInput]
      · have hqi : isQueryInput v = true := by simp [isQueryInput, hp, hq]
        simp only [explodeStep, hp, hq, hqi, List.filter_cons, Bool.false_eq_true, if_false,
          bne_iff_ne, ne_eq, not_false_eq_true, if_true, List.map_cons, reduceCtorEq]
        cases hr : (rest.filter isQueryInput).map (queryItem d) with
        | nil =>
          have hr2 : rest.filter isQueryInput = [] := by simpa using hr
          simp [hr2, join, String.append_assoc]
        | cons item items =>
          have hr2 : rest.filter isQueryInput ≠ [] := by
            intro h0
            rw [h0] at hr
            simp at hr
          simp only [hr2, if_false, join, String.append_assoc]

theorem join_ne_empty (sep a : String) (l : List String) (h : a ≠ "") :
    join sep (a :: l) ≠ "" := by
  intro h0
  rw [join_cons_eq] at h0
  have hd := congrArg String.data h0
  simp only [String.data_append] at hd
  have ha : a.data = [] := (List.append_eq_nil.mp hd).1
  exact h (String.ext ha)

theorem explodeURL_eq (d : Deps) (r : Resource) :
    explodeURL d r
      = closePath ((r.Inputs.filter (fun v => v.PathParam)).foldl (pathStep d) r.Path)
        ++ (if r.Inputs.filter isQueryInput = [] then ""
            else " + encodeParams("
              ++ join ", " ((r.Inputs.filter isQueryInput).map (queryItem d)) ++ ")") := by
  unfold explodeURL
  rw [params_fold]
  unfold explodeFinish
  cases hq : r.Inputs.filter isQueryInput with
  | nil => simp
  | cons v rest =>
    have hne : join ", " (queryItem d v :: rest.map (queryItem d)) ≠ "" :=
      join_ne_empty _ _ _ (queryItem_ne_empty d v)
    simp [hne, String.append_assoc]

theorem filter_path_of_url (l : List ResourceInput) :
    (l.filter isURLInput).filter (fun v => v.PathParam) = l.filter (fun v => v.PathParam) := by
  rw [List.filter_filter]
  congr 1
  funext v
  cases hp : v.PathParam <;> simp [isURLInput, hp]

theorem filter_query_of_url (l : List ResourceInput) :
    (l.filter isURLInput).filter isQueryInput = l.filter isQueryInput := by
  rw [List.filter_filter]
  congr 1
  funext v
  cases hp : v.PathParam <;> simp [isURLInput, isQueryInput, hp]

/-- C7: for every Resource, the text of `explodeURL` is the path expression
followed, when there is a query-parameter Input, by ` + encodeParams(` and the
items of the query-parameter Inputs, one per Input in declaration order and
separated by `, `, and `)`, and by nothing when there is none; and two Resources
with the same path whose Inputs differ only in Inputs that are neither path nor
query parameters (header-carried Inputs and body candidates) have the same
text. -/
theorem C7_query_items_in_declaration_order (d : Deps) (r : Resource) :
    explodeURL d r
        = closePath ((r.Inputs.filter (fun v => v.PathParam)).foldl (pathStep d) r.Path)
          ++ (if r.Inputs.filter isQueryInput = [] then ""
              else " + encodeParams("
                ++ join ", " ((r.Inputs.filter isQueryInput).map (queryItem d)) ++ ")")
      ∧ ∀ r2 : Resource, r2.Path = r.Path →
          r2.Inputs.filter isURLInput = r.Inputs.filter isURLInput →
          explodeURL d r2 = explodeURL d r := by
  refine ⟨explodeURL_eq d r, ?_⟩
  intro r2 hp hi
  rw [explodeURL_eq, explodeURL_eq, hp, ← filter_path_of_url r2.Inputs,
    ← filter_query_of_url r2.Inputs, hi, filter_path_of_url, filter_query_of_url]

/-- C7 (witness): the theorem at `searchResource`, whose two query parameters
stand around a header Input and a body Input, and the same Resource without
those two Inputs. -/
theorem C7_query_items_in_declaration_order_witness :
    searchResourceURLOnly.Inputs.length + 2 = searchResource.Inputs.length
      ∧ explodeURL exampleDeps searchResourceURLOnly = explodeURL exampleDeps searchResource
      ∧ explodeURL exampleDeps searchResource
          = "\"/item/\" + id + \"/search\" + encodeParams("
            ++ "encodeInt32Param(\"offset\", int32(skip), 0), "
            ++ "encodeOptionalInt32Param(\"count\", limit))" :=
  ⟨by decide,
    (C7_query_items_in_declaration_order exampleDeps searchResource).2 searchResourceURLOnly
      (by decide) (by decide),
    by decide⟩

/-! ## C6: the path expression of `explodeURL` -/

theorem replaceAux_skip (old new : List Char) (k : Nat) (cs : List Char) :
    replaceAux old new k cs = replaceAux old new 0 (cs.drop k) := by
  induction cs generalizing k with
  | nil => simp [replaceAux]
  | cons c cs ih =>
    cases k with
    | zero => rfl
    | succ k => simp only [replaceAux, List.drop_succ_cons, ih k]

theorem replaceAux_cons (old new : List Char) (c : Char) (cs : List Char) :
    replaceAux old new 0 (c :: cs)
      = if old.isPrefixOf (c :: cs) then new ++ replaceAux old new 0 (cs.drop (old.length - 1))
        else c :: replaceAux old new 0 cs := by
  simp only [replaceAux]
  rw [replaceAux_skip]

theorem replaceAux_of_not_mem (o : Char) (os new a : List Char) (h : o ∉ a) :
    replaceAux (o :: os) new 0 a = a := by
  induction a with
  | nil => rfl
  | cons c cs ih =>
    have hc : o ≠ c := fun e => h (e ▸ List.mem_cons_self _ _)
    have hcs : o ∉ cs := fun e => h (List.mem_cons_of_mem _ e)
    rw [replaceAux_cons, ih hcs]
    simp [List.isPrefixOf, hc]

theorem prefix_of_barrier (old a b : List Char) (q : Char) (hq : q ∉ old)
    (h : old <+: a ++ q :: b) : old <+: a := by
  by_cases hl : old.length ≤ a.length
  · exact List.prefix_of_prefix_length_le h (List.prefix_append _ _) hl
  · exfalso
    have h2 : a ++ [q] <+: a ++ q :: b := by
      refine ⟨b, ?_⟩
      simp
    have h3 : a ++ [q] <+: old :=
      List.prefix_of_prefix_length_le h2 h (by simp; omega)
    exact hq (h3.subset (by simp))

theorem replaceAux_barrier_aux (o : Char) (os new : List Char) (q : Char) (hq : q ∉ o :: os)
    (b : List Char) :
    ∀ (n : Nat) (a : List Char), a.length ≤ n →
      replaceAux (o :: os) new 0 (a ++ q :: b)
        = replaceAux (o :: os) new 0 a ++ q :: replaceAux (o :: os) new 0 b := by
  intro n
  induction n with
  | zero =>
    intro a ha
    have ha0 : a = [] := List.length_eq_zero.mp (Nat.le_zero.mp ha)
    subst ha0
    have hoq : o ≠ q := fun e => hq (e ▸ List.mem_cons_self _ _)
    rw [List.nil_append, replaceAux_cons]
    simp [List.isPrefixOf, hoq, replaceAux]
  | succ n ih =>
    intro a ha
    cases a with
    | nil =>
      have hoq : o ≠ q := fun e => hq (e ▸ List.mem_cons_self _ _)
      rw [List.nil_append, replaceAux_cons]
      simp [List.isPrefixOf, hoq, replaceAux]
    | cons c cs =>
      have hcs : cs.length ≤ n := by simpa using ha
      rw [List.cons_append, replaceAux_cons, replaceAux_cons]
      by_cases hp : (o :: os).isPrefixOf (c :: (cs ++ q :: b)) = true
      · have hp1 : (o :: os) <+: (c :: cs) ++ q :: b := by
          simpa using List.isPrefixOf_iff_prefix.mp hp
        have hp2 : (o :: os) <+: c :: cs := prefix_of_barrier _ _ _ _ hq hp1
        have hp3 : (o :: os).isPrefixOf (c :: cs) = true := List.isPrefixOf_iff_prefix.mpr hp2
        have hlen : (o :: os).length - 1 ≤ cs.length := by
          have := hp2.length_le
          simp at this ⊢
          omega
        rw [if_pos hp, if_pos hp3, List.drop_append_of_le_length hlen,
          ih (cs.drop ((o :: os).length - 1)) (by simp; omega)]
        simp
      · have hp3 : ¬ (o :: os).isPrefixOf (c :: cs) = true := by
          intro h3
          apply hp
          have h4 := List.isPrefixOf_iff_prefix.mp h3
          exact List.isPrefixOf_iff_prefix.mpr (h4.trans (List.prefix_append _ _))
        rw [if_neg hp, if_neg hp3, ih cs hcs]
        simp

theorem replaceAux_barrier (o : Char) (os new : List Char) (q : Char) (hq : q ∉ o :: os)
    (a b : List Char) :
    replaceAux (o :: os) new 0 (a ++ q :: b)
      = replaceAux (o :: os) new 0 a ++ q :: replaceAux (o :: os) new 0 b :=
  replaceAux_barrier_aux o os new q hq b a.length a (Nat.le_refl _)

theorem splitAux_skip (old : List Char) (k : Nat) (cs : List Char) :
    splitAux old k cs = splitAux old 0 (cs.drop k) := by
  induction cs generalizing k with
  | nil => simp [splitAux]
  | cons c cs ih =>
    cases k with
    | zero => rfl
    | succ k => simp only [splitAux, List.drop_succ_cons, ih k]

theorem splitAux_cons (old : List Char) (c : Char) (cs : List Char) :
    splitAux old 0 (c :: cs)
      = if old.isPrefixOf (c :: cs) then
          ([], (splitAux old 0 (cs.drop (old.length - 1))).1
            :: (splitAux old 0 (cs.drop (old.length - 1))).2)
        else (c :: (splitAux old 0 cs).1, (splitAux old 0 cs).2) := by
  simp only [splitAux]
  rw [splitAux_skip]

theorem replaceAux_eq_split_aux (old new : List Char) :
    ∀ (n : Nat) (cs : List Char), cs.length ≤ n →
      replaceAux old new 0 cs
        = (splitAux old 0 cs).1 ++ ((splitAux old 0 cs).2.map (fun t => new ++ t)).flatten := by
  intro n
  induction n with
  | zero =>
    intro cs h
    have h0 : cs = [] := List.length_eq_zero.mp (Nat.le_zero.mp h)
    subst h0
    simp [replaceAux, splitAux]
  | succ n ih =>
    intro cs h
    cases cs with
    | nil => simp [replaceAux, splitAux]
    | cons c cs =>
      have hcs : cs.length ≤ n := by simpa using h
      rw [replaceAux_cons, splitAux_cons]
      by_cases hp : old.isPrefixOf (c :: cs) = true
      · rw [if_pos hp, if_pos hp, ih (cs.drop (old.length - 1)) (by simp; omega)]
        simp
      · rw [if_neg hp, if_neg hp, ih cs hcs]
        simp

theorem replaceAux_eq_split (old new cs : List Char) :
    replaceAux old new 0 cs
      = (splitAux old 0 cs).1 ++ ((splitAux old 0 cs).2.map (fun t => new ++ t)).flatten :=
  replaceAux_eq_split_aux old new cs.length cs (Nat.le_refl _)

theorem replaceAux_self_aux (o : Char) (os : List Char) :
    ∀ (n : Nat) (cs : List Char), cs.length ≤ n →
      replaceAux (o :: os) (o :: os) 0 cs = cs := by
  intro n
  induction n with
  | zero =>
    intro cs h
    have h0 : cs = [] := List.length_eq_zero.mp (Nat.le_zero.mp h)
    subst h0
    rfl
  | succ n ih =>
    intro cs h
    cases cs with
    | nil => rfl
    | cons c cs =>
      have hcs : cs.length ≤ n := by simpa using h
      rw [replaceAux_cons]
      by_cases hp : (o :: os).isPrefixOf (c :: cs) = true
      · rw [if_pos hp, ih (cs.drop ((o :: os).length - 1)) (by simp; omega)]
        have hp1 := List.isPrefixOf_iff_prefix.mp hp
        have hp2 := List.prefix_iff_eq_append.mp hp1
        simpa using hp2
      · rw [if_neg hp, ih cs hcs]

theorem split_reconstruct (o : Char) (os cs : List Char) :
    cs = (splitAux (o :: os) 0 cs).1
          ++ ((splitAux (o :: os) 0 cs).2.map (fun t => (o :: os) ++ t)).flatten := by
  rw [← replaceAux_eq_split]
  exact (replaceAux_self_aux o os cs.length cs (Nat.le_refl _)).symm

theorem split_chunks_aux (o : Char) (os : List Char) :
    ∀ (n : Nat) (cs : List Char), cs.length ≤ n →
      (splitAux (o :: os) 0 cs).1 <+: cs ∧ ¬ (o :: os) <:+: (splitAux (o :: os) 0 cs).1
        ∧ ∀ x ∈ (splitAux (o :: os) 0 cs).2, x <:+: cs ∧ ¬ (o :: os) <:+: x := by
  intro n
  induction n with
  | zero =>
    intro cs h
    have h0 : cs = [] := List.length_eq_zero.mp (Nat.le_zero.mp h)
    subst h0
    simp [splitAux]
  | succ n ih =>
    intro cs h
    cases cs with
    | nil => simp [splitAux]
    | cons c cs =>
      have hcs : cs.length ≤ n := by simpa using h
      rw [splitAux_cons]
      by_cases hp : (o :: os).isPrefixOf (c :: cs) = true
      · rw [if_pos hp]
        obtain ⟨h1, h2, h3⟩ := ih (cs.drop ((o :: os).length - 1)) (by simp; omega)
        have hdrop : cs.drop ((o :: os).length - 1) <:+: c :: cs :=
          ((List.drop_suffix _ _).trans (List.suffix_cons _ _)).isInfix
        refine ⟨List.nil_prefix, by simp, ?_⟩
        intro x hx
        rcases List.mem_cons.mp hx with hx | hx
        · subst hx
          exact ⟨h1.isInfix.trans hdrop, h2⟩
        · exact ⟨(h3 x hx).1.trans hdrop, (h3 x hx).2⟩
      · rw [if_neg hp]
        obtain ⟨h1, h2, h3⟩ := ih cs hcs
        refine ⟨(List.prefix_cons_inj c).mpr h1, ?_, ?_⟩
        · intro hin
          rcases List.infix_cons_iff.mp hin with hpre | hinf
          · apply hp
            exact List.isPrefixOf_iff_prefix.mpr
              (hpre.trans ((List.prefix_cons_inj c).mpr h1))
          · exact h2 hinf
        · intro x hx
          exact ⟨(h3 x hx).1.trans (List.suffix_cons _ _).isInfix, (h3 x hx).2⟩

theorem split_chunks (o : Char) (os cs : List Char) :
    (splitAux (o :: os) 0 cs).1 <+: cs ∧ ¬ (o :: os) <:+: (splitAux (o :: os) 0 cs).1
      ∧ ∀ x ∈ (splitAux (o :: os) 0 cs).2, x <:+: cs ∧ ¬ (o :: os) <:+: x :=
  split_chunks_aux o os cs.length cs (Nat.le_refl _)

theorem weave_cons (f : String → List Char) (c : List Char) (q : String × List Char)
    (qs : List (String × List Char)) :
    weave f (c, q :: qs) = c ++ f q.1 ++ weave f (q.2, qs) := by
  simp [weave]

theorem weave_append (f : String → List Char) (c : List Char)
    (qs rs : List (String × List Char)) :
    weave f (c, qs ++ rs) = weave f (c, qs) ++ (rs.map (fun q => f q.1 ++ q.2)).flatten := by
  simp [weave]

theorem weave_refineChunk_code (d : Deps) (name : String) (c : List Char) :
    weave (identSegment d) (refineChunk name c)
      = replaceAux (placeholder name) (identSegment d name) 0 c := by
  rw [replaceAux_eq_split]
  simp [weave, refineChunk, List.map_map, Function.comp_def]

theorem weave_refineChunk_template (name : String) (c : List Char) :
    weave placeholder (refineChunk name c) = c := by
  have h := split_reconstruct '{' (name.data ++ ['}']) c
  simp only [weave, refineChunk, List.map_map, Function.comp_def]
  exact h.symm

theorem weave_refine (f : String → List Char) (name : String) (p : Pieces) :
    weave f (refine name p)
      = weave f (refineChunk name p.1)
        ++ (p.2.map (fun q => f q.1 ++ weave f (refineChunk name q.2))).flatten := by
  obtain ⟨c, qs⟩ := p
  simp only [refine]
  rw [weave_append]
  congr 1
  induction qs with
  | nil => rfl
  | cons q qs ih =>
    simp only [List.flatMap_cons, List.map_append, List.flatten_append, List.map_cons,
      List.flatten_cons, ih]
    simp [weave]

theorem weave_refine_template (name : String) (p : Pieces) :
    weave placeholder (refine name p) = weave placeholder p := by
  rw [weave_refine]
  simp only [weave_refineChunk_template]
  rfl

theorem replaceAux_segment (d : Deps) (o : Char) (os new : List Char) (name : String)
    (hq : '"' ∉ o :: os) (ho : o ∉ " + ".data ++ (d.goName name).data ++ " + ".data)
    (a b : List Char) :
    replaceAux (o :: os) new 0 (a ++ identSegment d name ++ b)
      = replaceAux (o :: os) new 0 a ++ identSegment d name ++ replaceAux (o :: os) new 0 b := by
  have hseg : identSegment d name
      = '"' :: (" + ".data ++ (d.goName name).data ++ " + ".data) ++ ['"'] := by
    simp [identSegment]
  rw [hseg]
  have e1 : a ++ ('"' :: (" + ".data ++ (d.goName name).data ++ " + ".data) ++ ['"']) ++ b
      = a ++ '"' :: ((" + ".data ++ (d.goName name).data ++ " + ".data) ++ '"' :: b) := by
    simp
  rw [e1, replaceAux_barrier o os new '"' hq, replaceAux_barrier o os new '"' hq,
    replaceAux_of_not_mem o os new _ ho]
  simp

theorem replaceAux_weave (d : Deps) (o : Char) (os new : List Char) (hq : '"' ∉ o :: os)
    (qs : List (String × List Char))
    (ho : ∀ q ∈ qs, o ∉ " + ".data ++ (d.goName q.1).data ++ " + ".data) (c : List Char) :
    replaceAux (o :: os) new 0 (weave (identSegment d) (c, qs))
      = replaceAux (o :: os) new 0 c
        ++ (qs.map (fun q => identSegment d q.1 ++ replaceAux (o :: os) new 0 q.2)).flatten := by
  induction qs generalizing c with
  | nil => simp [weave]
  | cons q qs ih =>
    rw [weave_cons, replaceAux_segment d o os new q.1 hq (ho q (List.mem_cons_self _ _)),
      ih (fun r hr => ho r (List.mem_cons_of_mem _ hr))]
    simp

theorem replaceAux_weave_refine (d : Deps) (name : String) (p : Pieces)
    (hq : '"' ∉ name.data)
    (ho : ∀ q ∈ p.2, '{' ∉ (d.goName q.1).data) :
    replaceAux (placeholder name) (identSegment d name) 0 (weave (identSegment d) p)
      = weave (identSegment d) (refine name p) := by
  obtain ⟨c, qs⟩ := p
  have hq2 : '"' ∉ '{' :: (name.data ++ ['}']) := by
    simp only [List.mem_cons, List.mem_append, List.mem_singleton, not_or]
    exact ⟨by decide, hq, by decide, by simp⟩
  have ho2 : ∀ q ∈ qs, '{' ∉ " + ".data ++ (d.goName q.1).data ++ " + ".data := by
    intro q hqm
    simp only [List.mem_append, not_or]
    exact ⟨⟨by decide, ho q hqm⟩, by decide⟩
  rw [weave_refine]
  simp only [weave_refineChunk_code]
  exact replaceAux_weave d '{' (name.data ++ ['}']) _ hq2 qs ho2 c

theorem refineChunk_chunks (name : String) (c : List Char) :
    ∀ x ∈ (refineChunk name c).1 :: (refineChunk name c).2.map Prod.snd,
      x <:+: c ∧ ¬ placeholder name <:+: x := by
  obtain ⟨h1, h2, h3⟩ := split_chunks '{' (name.data ++ ['}']) c
  intro x hx
  simp only [refineChunk, List.map_map, Function.comp_def, List.map_id_fun, id, List.mem_cons]
    at hx
  rcases hx with hx | hx
  · subst hx
    exact ⟨h1.isInfix, h2⟩
  · simp only [List.mem_map] at hx
    obtain ⟨t, ht, rfl⟩ := hx
    exact h3 t ht

theorem refineChunk_names (name : String) (c : List Char) :
    ∀ q ∈ (refineChunk name c).2, q.1 = name := by
  intro q hq
  simp only [refineChunk, List.mem_map] at hq
  obtain ⟨t, _, rfl⟩ := hq
  rfl

theorem refine_chunks (name : String) (p : Pieces) :
    ∀ x ∈ (refine name p).1 :: (refine name p).2.map Prod.snd,
      (∃ y ∈ p.1 :: p.2.map Prod.snd, x <:+: y) ∧ ¬ placeholder name <:+: x := by
  intro x hx
  simp only [refine, List.mem_cons, List.map_append, List.mem_append, List.mem_map,
    List.mem_flatMap] at hx
  rcases hx with hx | ⟨q, hq, rfl⟩ | ⟨q, ⟨r, hr, hq⟩, rfl⟩
  · have h := refineChunk_chunks name p.1 x (by rw [hx]; exact List.mem_cons_self _ _)
    exact ⟨⟨p.1, List.mem_cons_self _ _, h.1⟩, h.2⟩
  · have h := refineChunk_chunks name p.1 q.2
      (List.mem_cons_of_mem _ (List.mem_map.mpr ⟨q, hq, rfl⟩))
    exact ⟨⟨p.1, List.mem_cons_self _ _, h.1⟩, h.2⟩
  · have hr2 : r.2 ∈ p.1 :: p.2.map Prod.snd :=
      List.mem_cons_of_mem _ (List.mem_map.mpr ⟨r, hr, rfl⟩)
    rcases hq with hq | hq
    · subst hq
      have h := refineChunk_chunks name r.2 (refineChunk name r.2).1 (List.mem_cons_self _ _)
      exact ⟨⟨r.2, hr2, h.1⟩, h.2⟩
    · have h := refineChunk_chunks name r.2 q.2
        (List.mem_cons_of_mem _ (List.mem_map.mpr ⟨q, hq, rfl⟩))
      exact ⟨⟨r.2, hr2, h.1⟩, h.2⟩

theorem refine_names (name : String) (p : Pieces) :
    ∀ q ∈ (refine name p).2, q.1 = name ∨ ∃ r ∈ p.2, q.1 = r.1 := by
  intro q hq
  simp only [refine, List.mem_append, List.mem_flatMap, List.mem_cons] at hq
  rcases hq with hq | ⟨r, hr, hq | hq⟩
  · exact Or.inl (refineChunk_names name p.1 q hq)
  · subst hq
    exact Or.inr ⟨r, hr, rfl⟩
  · exact Or.inl (refineChunk_names name r.2 q hq)

theorem fold_refine_template (inputs : List ResourceInput) (p : Pieces) :
    weave placeholder (inputs.foldl (fun p v => refine v.Name p) p) = weave placeholder p := by
  induction inputs generalizing p with
  | nil => rfl
  | cons v rest ih => rw [List.foldl_cons, ih, weave_refine_template]

theorem fold_refine_names (inputs : List ResourceInput) (p : Pieces) :
    ∀ q ∈ (inputs.foldl (fun p v => refine v.Name p) p).2,
      (∃ v ∈ inputs, q.1 = v.Name) ∨ ∃ r ∈ p.2, q.1 = r.1 := by
  induction inputs generalizing p with
  | nil =>
    intro q hq
    exact Or.inr ⟨q, hq, rfl⟩
  | cons v rest ih =>
    intro q hq
    rw [List.foldl_cons] at hq
    rcases ih (refine v.Name p) q hq with ⟨w, hw, hqw⟩ | ⟨r, hr, hqr⟩
    · exact Or.inl ⟨w, List.mem_cons_of_mem _ hw, hqw⟩
    · rcases refine_names v.Name p r hr with h | ⟨s, hs, hrs⟩
      · exact Or.inl ⟨v, List.mem_cons_self _ _, hqr.trans h⟩
      · exact Or.inr ⟨s, hs, hqr.trans hrs⟩

theorem fold_refine_chunks (inputs : List ResourceInput) (p : Pieces) :
    ∀ x ∈ (inputs.foldl (fun p v => refine v.Name p) p).1
        :: (inputs.foldl (fun p v => refine v.Name p) p).2.map Prod.snd,
      (∃ y ∈ p.1 :: p.2.map Prod.snd, x <:+: y)
        ∧ ∀ v ∈ inputs, ¬ placeholder v.Name <:+: x := by
  induction inputs generalizing p with
  | nil =>
    intro x hx
    exact ⟨⟨x, hx, List.infix_refl _⟩, by simp⟩
  | cons v rest ih =>
    intro x hx
    rw [List.foldl_cons] at hx
    obtain ⟨⟨y, hy, hxy⟩, hfree⟩ := ih (refine v.Name p) x hx
    obtain ⟨⟨z, hz, hyz⟩, hyfree⟩ := refine_chunks v.Name p y hy
    refine ⟨⟨z, hz, hxy.trans hyz⟩, ?_⟩
    intro w hw
    rcases List.mem_cons.mp hw with hw | hw
    · subst hw
      exact fun h => hyfree (h.trans hxy)
    · exact hfree w hw

theorem fold_pathStep (d : Deps) (inputs : List ResourceInput) (p : Pieces)
    (hs : ∀ v ∈ inputs, v.Type_ = "String")
    (hq : ∀ v ∈ inputs, '"' ∉ v.Name.data)
    (hg : ∀ v ∈ inputs, '{' ∉ (d.goName v.Name).data)
    (hp : ∀ q ∈ p.2, '{' ∉ (d.goName q.1).data) :
    inputs.foldl (pathStep d) (String.mk (weave (identSegment d) p))
      = String.mk (weave (identSegment d) (inputs.foldl (fun p v => refine v.Name p) p)) := by
  induction inputs generalizing p with
  | nil => rfl
  | cons v rest ih =>
    rw [List.foldl_cons, List.foldl_cons]
    have hstep : pathStep d (String.mk (weave (identSegment d) p)) v
        = String.mk (weave (identSegment d) (refine v.Name p)) := by
      have hv : v.Type_ = "String" := hs v (List.mem_cons_self _ _)
      simp only [pathStep, hv, beq_self_eq_true, if_true, replaceAll]
      rw [← replaceAux_weave_refine d v.Name p (hq v (List.mem_cons_self _ _)) hp]
      rfl
    rw [hstep]
    apply ih
    · exact fun w hw => hs w (List.mem_cons_of_mem _ hw)
    · exact fun w hw => hq w (List.mem_cons_of_mem _ hw)
    · exact fun w hw => hg w (List.mem_cons_of_mem _ hw)
    · intro q hqm
      rcases refine_names v.Name p q hqm with h | ⟨r, hr, hqr⟩
      · rw [h]
        exact hg v (List.mem_cons_self _ _)
      · rw [hqr]
        exact hp r hr

theorem concat_data (l : List String) : (concat l).data = (l.map String.data).flatten := by
  induction l with
  | nil => rfl
  | cons a l ih => simp [concat, String.data_append, ih]

theorem renderExpr_cons_data (t : Tok) (toks : List Tok) :
    (renderExpr (t :: toks)).data
      = t.render.data ++ (toks.map (fun x => ' ' :: '+' :: ' ' :: x.render.data)).flatten := by
  simp [renderExpr, join_cons_eq, String.data_append, concat_data, List.map_map,
    Function.comp_def]

theorem render_lit_data (s : List Char) : (Tok.render (.lit s)).data = '"' :: (s ++ ['"']) := by
  simp [Tok.render, String.data_append]

theorem render_ident_data (x : String) : (Tok.render (.ident x)).data = x.data := rfl

theorem identSegment_eq (d : Deps) (name : String) :
    identSegment d name
      = '"' :: ' ' :: '+' :: ' ' :: ((d.goName name).data ++ [' ', '+', ' ', '"']) := by
  simp [identSegment]

theorem quote_shift (d : Deps) (qs : List (String × List Char)) :
    '"' :: ((qs.flatMap (fun q => [Tok.ident (d.goName q.1), Tok.lit q.2])).map
        (fun x => ' ' :: '+' :: ' ' :: x.render.data)).flatten
      = (qs.map (fun q => identSegment d q.1 ++ q.2)).flatten ++ ['"'] := by
  induction qs with
  | nil => rfl
  | cons q qs ih =>
    simp only [List.flatMap_cons, List.map_append, List.flatten_append, List.map_cons,
      List.map_nil, List.flatten_cons, List.flatten_nil, List.append_nil,
      render_lit_data, render_ident_data, List.append_assoc, List.cons_append,
      List.nil_append]
    rw [ih, identSegment_eq]
    simp only [List.append_assoc, List.cons_append, List.nil_append]

theorem render_all_data (d : Deps) (c0 : List Char) (qs : List (String × List Char)) :
    (renderExpr (Tok.lit c0 :: qs.flatMap
        (fun q => [Tok.ident (d.goName q.1), Tok.lit q.2]))).data
      = '"' :: (weave (identSegment d) (c0, qs) ++ ['"']) := by
  rw [renderExpr_cons_data, render_lit_data]
  simp only [weave, List.cons_append, List.append_assoc, List.nil_append]
  rw [quote_shift]

theorem render_open_data (d : Deps) (c0 : List Char) (qs : List (String × List Char))
    (k : String) :
    (renderExpr (Tok.lit c0 :: (qs.flatMap
        (fun q => [Tok.ident (d.goName q.1), Tok.lit q.2]) ++ [Tok.ident (d.goName k)]))).data
      = '"' :: (weave (identSegment d) (c0, qs)
          ++ '"' :: ' ' :: '+' :: ' ' :: (d.goName k).data) := by
  rw [renderExpr_cons_data, render_lit_data]
  simp only [weave, List.cons_append, List.append_assoc, List.nil_append, List.map_append,
    List.flatten_append, List.map_cons, List.map_nil, List.flatten_cons, List.flatten_nil,
    render_ident_data, List.append_nil]
  have h := quote_shift d qs
  generalize ((qs.flatMap (fun q => [Tok.ident (d.goName q.1), Tok.lit q.2])).map
        (fun x => ' ' :: '+' :: ' ' :: x.render.data)).flatten = R at h ⊢
  generalize (qs.map (fun q => identSegment d q.1 ++ q.2)).flatten = V at h ⊢
  have h2 : '"' :: (R ++ ' ' :: '+' :: ' ' :: (d.goName k).data)
      = V ++ '"' :: ' ' :: '+' :: ' ' :: (d.goName k).data := by
    rw [← List.cons_append, h]
    simp only [List.append_assoc, List.cons_append, List.nil_append]
  rw [h2]

theorem closePath_data (s : String) :
    (closePath s).data
      = if " + \"".data <:+ '"' :: s.data then
          ('"' :: s.data).take (('"' :: s.data).length - 4)
        else '"' :: (s.data ++ ['"']) := by
  by_cases h : " + \"".data <:+ '"' :: s.data
  · have hb : hasSuffix ("\"" ++ s) " + \"" = true := by
      simp only [hasSuffix, String.data_append]
      exact List.isSuffixOf_iff_suffix.mpr h
    simp only [closePath, hb, if_true, if_pos h, dropRight, String.data_append]
    rfl
  · have hb : hasSuffix ("\"" ++ s) " + \"" = false := by
      simp only [hasSuffix, String.data_append]
      rw [Bool.eq_false_iff]
      exact fun e => h (List.isSuffixOf_iff_suffix.mp e)
    simp only [closePath, hb, if_neg h, String.data_append, Bool.false_eq_true, if_false]
    rfl

theorem not_suffix_of_last_ne (text : List Char) (c : Char) (hc : c ≠ '"') :
    ¬ " + \"".data <:+ text ++ [c] := by
  intro h
  have h1 : ([' ', '+', ' '] ++ ['"']) <:+ text ++ [c] := h
  obtain ⟨t, ht⟩ := h1
  have h2 : (t ++ [' ', '+', ' ']) ++ ['"'] = text ++ [c] := by simpa using ht
  have h3 := List.append_inj_right' h2 rfl
  simp at h3
  exact hc h3.symm

theorem piecesTokens_nil (d : Deps) (c0 : List Char) :
    piecesTokens d (c0, []) = [Tok.lit c0] := rfl

theorem piecesTokens_concat_empty (d : Deps) (c0 : List Char) (qs : List (String × List Char))
    (k : String) :
    piecesTokens d (c0, qs ++ [(k, [])])
      = Tok.lit c0 :: (qs.flatMap (fun q => [Tok.ident (d.goName q.1), Tok.lit q.2])
          ++ [Tok.ident (d.goName k)]) := by
  have hall : Tok.lit c0 :: (qs ++ [(k, ([] : List Char))]).flatMap
        (fun q => [Tok.ident (d.goName q.1), Tok.lit q.2])
      = (Tok.lit c0 :: (qs.flatMap (fun q => [Tok.ident (d.goName q.1), Tok.lit q.2])
          ++ [Tok.ident (d.goName k)])) ++ [Tok.lit []] := by
    simp
  simp only [piecesTokens, List.getLast?_concat, hall, List.dropLast_concat]

theorem piecesTokens_concat_nonempty (d : Deps) (c0 : List Char)
    (qs : List (String × List Char)) (k : String) (c : List Char) (hc : c ≠ []) :
    piecesTokens d (c0, qs ++ [(k, c)])
      = Tok.lit c0 :: (qs ++ [(k, c)]).flatMap
          (fun q => [Tok.ident (d.goName q.1), Tok.lit q.2]) := by
  cases c with
  | nil => exact absurd rfl hc
  | cons a as =>
    simp only [piecesTokens, List.getLast?_concat]

theorem closePath_weave (d : Deps) (p : Pieces)
    (hq : ∀ x ∈ p.1 :: p.2.map Prod.snd, '"' ∉ x) :
    closePath (String.mk (weave (identSegment d) p)) = renderExpr (piecesTokens d p) := by
  obtain ⟨c0, qs⟩ := p
  apply String.ext
  rw [closePath_data]
  rcases List.eq_nil_or_concat qs with hnil | ⟨qs1, q, hqs⟩
  · subst hnil
    have hns : ¬ " + \"".data <:+ '"' :: (weave (identSegment d) (c0, [])) := by
      rcases List.eq_nil_or_concat c0 with h0 | ⟨c1, ch, h1⟩
      · subst h0
        intro h
        have := h.length_le
        simp [weave] at this
      · rw [List.concat_eq_append] at h1
        subst h1
        have hch : ch ≠ '"' := by
          intro e
          apply hq (c1 ++ [ch]) (List.mem_cons_self _ _)
          simp [e]
        have := not_suffix_of_last_ne ('"' :: c1) ch hch
        simpa [weave] using this
    rw [if_neg hns, piecesTokens_nil]
    simp [renderExpr, join, Tok.render, weave, String.data_append]
  · rw [List.concat_eq_append] at hqs
    subst hqs
    obtain ⟨k, c⟩ := q
    have hw : weave (identSegment d) (c0, qs1 ++ [(k, c)])
        = weave (identSegment d) (c0, qs1)
          ++ '"' :: ' ' :: '+' :: ' ' :: ((d.goName k).data ++ [' ', '+', ' ', '"']) ++ c := by
      simp [weave, identSegment_eq]
    rcases List.eq_nil_or_concat c with hc | ⟨c1, ch, hc⟩
    · subst hc
      have hsplit : '"' :: (weave (identSegment d) (c0, qs1 ++ [(k, [])]))
          = ('"' :: (weave (identSegment d) (c0, qs1)
              ++ '"' :: ' ' :: '+' :: ' ' :: (d.goName k).data)) ++ " + \"".data := by
        rw [hw]
        simp
      have hsuf : " + \"".data <:+ '"' :: (weave (identSegment d) (c0, qs1 ++ [(k, [])])) := by
        rw [hsplit]
        exact List.suffix_append _ _
      rw [if_pos hsuf, piecesTokens_concat_empty, render_open_data, hsplit]
      have hlen : (('"' :: (weave (identSegment d) (c0, qs1)
              ++ '"' :: ' ' :: '+' :: ' ' :: (d.goName k).data)) ++ " + \"".data).length - 4
          = ('"' :: (weave (identSegment d) (c0, qs1)
              ++ '"' :: ' ' :: '+' :: ' ' :: (d.goName k).data)).length := by
        rw [List.length_append]
        have : " + \"".data.length = 4 := rfl
        omega
      rw [hlen, List.take_left]
    · rw [List.concat_eq_append] at hc
      subst hc
      have hch : ch ≠ '"' := by
        intro e
        apply hq (c1 ++ [ch])
          (List.mem_cons_of_mem _ (List.mem_map.mpr ⟨(k, c1 ++ [ch]), by simp, rfl⟩))
        simp [e]
      have hns : ¬ " + \"".data <:+ '"' :: (weave (identSegment d) (c0, qs1 ++ [(k, c1 ++ [ch])]))
          := by
        have := not_suffix_of_last_ne ('"' :: (weave (identSegment d) (c0, qs1)
          ++ '"' :: ' ' :: '+' :: ' ' :: ((d.goName k).data ++ [' ', '+', ' ', '"']) ++ c1)) ch hch
        rw [hw]
        simpa using this
      rw [if_neg hns, piecesTokens_concat_nonempty d c0 qs1 k (c1 ++ [ch]) (by simp),
        render_all_data]

theorem substitute_skip (params : List (String × GoString)) (k : Nat) (cs : List Char) :
    substitute params k cs = substitute params 0 (cs.drop k) := by
  induction cs generalizing k with
  | nil => simp [substitute]
  | cons c cs ih =>
    cases k with
    | zero => rfl
    | succ k => simp only [substitute, List.drop_succ_cons, ih k]

theorem prefix_inside (o : Char) (os : List Char) (c : Char) (s rest : List Char)
    (hrest : ∀ q r, rest = q :: r → q ∉ os)
    (h : o :: os <+: (c :: s) ++ rest) : o :: os <+: c :: s := by
  cases rest with
  | nil => simpa using h
  | cons q r =>
    have hq : q ∉ os := hrest q r rfl
    rw [List.cons_append] at h
    have hoc : o = c := (List.cons_prefix_cons.mp h).1
    have hos : os <+: s ++ q :: r := (List.cons_prefix_cons.mp h).2
    have h2 := prefix_of_barrier os s r q hq hos
    rw [hoc]
    exact (List.prefix_cons_inj c).mpr h2

theorem substitute_chunk (params : List (String × GoString)) (x rest : List Char)
    (hfree : ∀ p ∈ params, ¬ placeholder p.1 <:+: x)
    (hrest : ∀ p ∈ params, ∀ q r, rest = q :: r → q ∉ p.1.data ++ ['}']) :
    substitute params 0 (x ++ rest) = litChars x ++ substitute params 0 rest := by
  induction x with
  | nil => rfl
  | cons c x ih =>
    have hnone : params.find? (fun p => (placeholder p.1).isPrefixOf (c :: (x ++ rest))) = none
        := by
      rw [List.find?_eq_none]
      intro p hp hpre
      have h1 : placeholder p.1 <+: (c :: x) ++ rest := by
        simpa using List.isPrefixOf_iff_prefix.mp hpre
      exact hfree p hp (prefix_inside '{' (p.1.data ++ ['}']) c x rest (hrest p hp) h1).isInfix
    have hfree2 : ∀ p ∈ params, ¬ placeholder p.1 <:+: x :=
      fun p hp h => hfree p hp (h.trans (List.suffix_cons _ _).isInfix)
    rw [List.cons_append]
    simp only [substitute, hnone]
    rw [ih hfree2]
    simp [litChars]

theorem eq_of_terminated_prefix (q : Char) (a b r : List Char) (ha : q ∉ a) (hb : q ∉ b)
    (h : a ++ [q] <+: b ++ q :: r) : a = b := by
  induction a generalizing b with
  | nil =>
    cases b with
    | nil => rfl
    | cons y b =>
      exfalso
      have := (List.cons_prefix_cons.mp h).1
      exact hb (this ▸ List.mem_cons_self _ _)
  | cons x a ih =>
    cases b with
    | nil =>
      exfalso
      have := (List.cons_prefix_cons.mp h).1
      exact ha (this ▸ List.mem_cons_self _ _)
    | cons y b =>
      have h1 := List.cons_prefix_cons.mp h
      rw [h1.1, ih b (fun e => ha (List.mem_cons_of_mem _ e))
        (fun e => hb (List.mem_cons_of_mem _ e)) h1.2]

theorem substitute_placeholder (params : List (String × GoString)) (value : String → GoString)
    (hval : ∀ p ∈ params, p.2 = value p.1)
    (hbrace : ∀ p ∈ params, '}' ∉ p.1.data)
    (name : String) (hname : ∃ p ∈ params, p.1 = name) (rest : List Char) :
    substitute params 0 (placeholder name ++ rest) = value name ++ substitute params 0 rest := by
  obtain ⟨p0, hp0, hp0n⟩ := hname
  have hnb : '}' ∉ name.data := hp0n ▸ hbrace p0 hp0
  have hsome : ∃ p, params.find? (fun p => (placeholder p.1).isPrefixOf
      ('{' :: (name.data ++ '}' :: rest))) = some p := by
    cases hf : params.find? (fun p => (placeholder p.1).isPrefixOf
        ('{' :: (name.data ++ '}' :: rest))) with
    | some p => exact ⟨p, rfl⟩
    | none =>
      exfalso
      rw [List.find?_eq_none] at hf
      apply hf p0 hp0
      apply List.isPrefixOf_iff_prefix.mpr
      rw [hp0n]
      refine ⟨rest, ?_⟩
      simp [placeholder]
  obtain ⟨p, hp⟩ := hsome
  have hmem : p ∈ params := List.mem_of_find?_eq_some hp
  have hpre : placeholder p.1 <+: '{' :: (name.data ++ '}' :: rest) := by
    have := List.find?_some hp
    exact List.isPrefixOf_iff_prefix.mp this
  have hdata : p.1.data = name.data :=
    eq_of_terminated_prefix '}' p.1.data name.data rest (hbrace p hmem) hnb
      (List.cons_prefix_cons.mp hpre).2
  have hname2 : p.1 = name := String.ext hdata
  have e : placeholder name ++ rest = '{' :: (name.data ++ '}' :: rest) := by
    simp [placeholder]
  rw [e]
  simp only [substitute, hp]
  rw [substitute_skip, hval p hmem, hname2]
  congr 1
  have : (name.data ++ '}' :: rest).drop (name.data.length + 1) = rest := by
    have e2 : name.data ++ '}' :: rest = (name.data ++ ['}']) ++ rest := by simp
    rw [e2, List.drop_left' (by simp)]
  rw [this]

theorem substitute_weave (params : List (String × GoString)) (value : String → GoString)
    (hval : ∀ p ∈ params, p.2 = value p.1)
    (hopen : ∀ p ∈ params, '{' ∉ p.1.data)
    (hclose : ∀ p ∈ params, '}' ∉ p.1.data)
    (qs : List (String × List Char)) (c0 : List Char)
    (hnames : ∀ q ∈ qs, ∃ p ∈ params, p.1 = q.1)
    (hfree : ∀ x ∈ c0 :: qs.map Prod.snd, ∀ p ∈ params, ¬ placeholder p.1 <:+: x) :
    substitute params 0 (weave placeholder (c0, qs))
      = litChars c0 ++ (qs.map (fun q => value q.1 ++ litChars q.2)).flatten := by
  induction qs generalizing c0 with
  | nil =>
    have h := substitute_chunk params c0 [] (hfree c0 (List.mem_cons_self _ _))
      (by intro p _ q r e; cases e)
    simpa [weave, substitute] using h
  | cons q qs ih =>
    have hw : weave placeholder (c0, q :: qs)
        = c0 ++ (placeholder q.1 ++ weave placeholder (q.2, qs)) := by
      simp [weave]
    rw [hw, substitute_chunk params c0 _ (hfree c0 (List.mem_cons_self _ _))]
    · rw [substitute_placeholder params value hval hclose q.1
        (hnames q (List.mem_cons_self _ _)),
        ih q.2 (fun r hr => hnames r (List.mem_cons_of_mem _ hr))
          (fun x hx => hfree x (List.mem_cons_of_mem _ (by simpa using hx)))]
      simp
    · intro p hp a r e
      have ha : a = '{' := by
        simp only [placeholder, List.cons_append, List.cons.injEq] at e
        exact e.1.symm
      rw [ha]
      simp only [List.mem_append, List.mem_singleton, not_or]
      exact ⟨hopen p hp, by decide⟩

theorem evalExpr_piecesTokens (d : Deps) (env : String → GoString) (p : Pieces) :
    evalExpr env (piecesTokens d p)
      = litChars p.1 ++ (p.2.map (fun q => env (d.goName q.1) ++ litChars q.2)).flatten := by
  obtain ⟨c0, qs⟩ := p
  have hall : ∀ rs : List (String × List Char),
      evalExpr env (Tok.lit c0 :: rs.flatMap (fun q => [Tok.ident (d.goName q.1), Tok.lit q.2]))
        = litChars c0 ++ (rs.map (fun q => env (d.goName q.1) ++ litChars q.2)).flatten := by
    intro rs
    simp only [evalExpr, List.map_cons, List.flatten_cons, Tok.eval]
    congr 1
    induction rs with
    | nil => rfl
    | cons r rs ih =>
      simp only [List.flatMap_cons, List.map_append, List.flatten_append, List.map_cons,
        List.map_nil, List.flatten_cons, List.flatten_nil, Tok.eval, ih, List.append_nil,
        List.append_assoc]
  rcases List.eq_nil_or_concat qs with hnil | ⟨qs1, q, hqs⟩
  · subst hnil
    rw [piecesTokens_nil]
    simp [evalExpr, Tok.eval]
  · rw [List.concat_eq_append] at hqs
    subst hqs
    obtain ⟨k, c⟩ := q
    cases c with
    | nil =>
      rw [piecesTokens_concat_empty]
      have h1 := hall qs1
      simp only [evalExpr, List.map_cons, List.flatten_cons, Tok.eval, List.map_append,
        List.flatten_append, List.map_nil, List.flatten_nil, List.append_nil] at h1 ⊢
      rw [← List.append_assoc, h1]
      simp [litChars]
    | cons a as =>
      rw [piecesTokens_concat_nonempty d c0 qs1 k (a :: as) (by simp)]
      exact hall _

theorem isIdentifier_not_mem (name : String) (h : isIdentifier name = true) (c : Char)
    (hc : (c.isAlphanum || c == '_') = false) : c ∉ name.data := by
  intro hm
  simp only [isIdentifier, Bool.and_eq_true, List.all_eq_true] at h
  have := h.1 c hm
  rw [hc] at this
  exact Bool.false_ne_true this

theorem mem_of_mem_piecesTokens (d : Deps) (p : Pieces) (t : Tok) (h : t ∈ piecesTokens d p) :
    t ∈ Tok.lit p.1 :: p.2.flatMap (fun q => [Tok.ident (d.goName q.1), Tok.lit q.2]) := by
  unfold piecesTokens at h
  simp only at h
  split at h
  · exact List.dropLast_subset _ h
  · exact h

/-- C6: for every Resource in which no Input is a query parameter, every path
parameter has type `String`, the path template has no quote and no backslash,
and the names of the path parameters and their Go names are identifiers, the
text of `explodeURL` is the concatenation, with ` + `, of the tokens
`urlTokens`: string literals whose characters come from the template (no quote,
no backslash) and Go identifiers of path parameters; and under every assignment
of values to the identifiers the value of that concatenation is the path
template with every placeholder of a path parameter replaced by the value of
the parameter, byte for byte. -/
theorem C6_path_expression (d : Deps) (r : Resource)
    (hquery : ∀ v ∈ r.Inputs, isQueryInput v = false)
    (hstring : ∀ v ∈ r.Inputs, v.PathParam = true → v.Type_ = "String")
    (hpath : '"' ∉ r.Path.data ∧ '\\' ∉ r.Path.data)
    (hnames : ∀ v ∈ r.Inputs, v.PathParam = true →
      isIdentifier v.Name = true ∧ isIdentifier (d.goName v.Name) = true) :
    explodeURL d r = renderExpr (urlTokens d r)
      ∧ (∀ t ∈ urlTokens d r,
          match t with
          | .lit s => '"' ∉ s ∧ '\\' ∉ s
          | .ident x => ∃ v ∈ r.Inputs, v.PathParam = true ∧ x = d.goName v.Name)
      ∧ ∀ env : String → GoString,
          evalExpr env (urlTokens d r) = substitute (pathParamValues d env r) 0 r.Path.data := by
  have hin : ∀ v ∈ r.Inputs.filter (fun v => v.PathParam), v ∈ r.Inputs ∧ v.PathParam = true := by
    intro v hv
    simpa using List.mem_filter.mp hv
  have hchunks := fold_refine_chunks (r.Inputs.filter (fun v => v.PathParam)) (r.Path.data, [])
  have hsub : ∀ x ∈ ((r.Inputs.filter (fun v => v.PathParam)).foldl
        (fun p v => refine v.Name p) (r.Path.data, [])).1
      :: ((r.Inputs.filter (fun v => v.PathParam)).foldl
        (fun p v => refine v.Name p) (r.Path.data, [])).2.map Prod.snd, x <:+: r.Path.data := by
    intro x hx
    obtain ⟨⟨y, hy, hxy⟩, _⟩ := hchunks x hx
    simp only [List.map_nil, List.mem_singleton] at hy
    exact hy ▸ hxy
  have hnm := fold_refine_names (r.Inputs.filter (fun v => v.PathParam)) (r.Path.data, [])
  refine ⟨?_, ?_, ?_⟩
  · have hq : r.Inputs.filter isQueryInput = [] := by
      rw [List.filter_eq_nil_iff]
      intro v hv
      simp [hquery v hv]
    rw [explodeURL_eq, hq, if_pos rfl, String.append_empty]
    have hfold := fold_pathStep d (r.Inputs.filter (fun v => v.PathParam)) (r.Path.data, [])
      (fun v hv => hstring v (hin v hv).1 (hin v hv).2)
      (fun v hv => isIdentifier_not_mem _ (hnames v (hin v hv).1 (hin v hv).2).1 _ (by decide))
      (fun v hv => isIdentifier_not_mem _ (hnames v (hin v hv).1 (hin v hv).2).2 _ (by decide))
      (by simp)
    have hw : String.mk (weave (identSegment d) (r.Path.data, [])) = r.Path := by
      simp [weave]
    rw [hw] at hfold
    rw [hfold, closePath_weave]
    · rfl
    · intro x hx hm
      exact hpath.1 ((hsub x hx).subset hm)
  · intro t ht
    have hmem := mem_of_mem_piecesTokens d _ t ht
    rcases List.mem_cons.mp hmem with h0 | h1
    · subst h0
      have := hsub _ (List.mem_cons_self _ _)
      exact ⟨fun hm => hpath.1 (this.subset hm), fun hm => hpath.2 (this.subset hm)⟩
    · obtain ⟨q, hq, htq⟩ := List.mem_flatMap.mp h1
      simp only [List.mem_cons, List.mem_singleton, List.not_mem_nil, or_false] at htq
      rcases htq with htq | htq
      · subst htq
        rcases hnm q hq with ⟨v, hv, hqv⟩ | ⟨s, hs, _⟩
        · exact ⟨v, (hin v hv).1, (hin v hv).2, by rw [hqv]⟩
        · simp at hs
      · subst htq
        have := hsub q.2 (List.mem_cons_of_mem _ (List.mem_map.mpr ⟨q, hq, rfl⟩))
        exact ⟨fun hm => hpath.1 (this.subset hm), fun hm => hpath.2 (this.subset hm)⟩
  · intro env
    have hparams : ∀ p ∈ pathParamValues d env r,
        ∃ v ∈ r.Inputs.filter (fun v => v.PathParam), p = (v.Name, env (d.goName v.Name)) := by
      intro p hp
      simp only [pathParamValues, List.mem_map] at hp
      obtain ⟨v, hv, rfl⟩ := hp
      exact ⟨v, hv, rfl⟩
    have htmpl := fold_refine_template (r.Inputs.filter (fun v => v.PathParam)) (r.Path.data, [])
    have hw : weave placeholder (r.Path.data, []) = r.Path.data := by simp [weave]
    rw [hw] at htmpl
    unfold urlTokens
    rw [evalExpr_piecesTokens]
    conv_rhs => rw [← htmpl]
    rw [substitute_weave (pathParamValues d env r) (fun k => env (d.goName k))]
    · intro p hp
      obtain ⟨v, _, rfl⟩ := hparams p hp
      rfl
    · intro p hp
      obtain ⟨v, hv, rfl⟩ := hparams p hp
      exact isIdentifier_not_mem _ (hnames v (hin v hv).1 (hin v hv).2).1 _ (by decide)
    · intro p hp
      obtain ⟨v, hv, rfl⟩ := hparams p hp
      exact isIdentifier_not_mem _ (hnames v (hin v hv).1 (hin v hv).2).1 _ (by decide)
    · intro q hq
      rcases hnm q hq with ⟨v, hv, hqv⟩ | ⟨s, hs, _⟩
      · exact ⟨(v.Name, env (d.goName v.Name)),
          List.mem_map.mpr ⟨v, hv, rfl⟩, hqv.symm⟩
      · simp at hs
    · intro x hx p hp
      obtain ⟨v, hv, rfl⟩ := hparams p hp
      exact (hchunks x hx).2 v hv

/-- C6 (witness): the theorem at `pathResource`, whose template has a placeholder
at the start, two adjacent placeholders, a repeated one and one at the end, with
values that themselves contain a placeholder and quotes. -/
theorem C6_path_expression_witness :
    explodeURL exampleDeps pathResource
        = "\"\" + zone + \"/item/\" + id + \"\" + rev + \"/of/\" + zone"
      ∧ explodeURL exampleDeps pathResource = renderExpr (urlTokens exampleDeps pathResource)
      ∧ evalExpr pathEnv (urlTokens exampleDeps pathResource)
          = substitute (pathParamValues exampleDeps pathEnv pathResource) 0 pathResource.Path.data
      ∧ substitute (pathParamValues exampleDeps pathEnv pathResource) 0 pathResource.Path.data
          = lit "\x7brev\x7d/item/42\"7\"/of/\x7brev\x7d" :=
  have h := C6_path_expression exampleDeps pathResource (by decide) (by decide) (by decide)
    (by decide)
  ⟨by decide, h.1, h.2.2 pathEnv, by decide⟩

/-! ## C8, C9 and C10: the encoders of the emitted client -/

theorem lit_empty : lit "" = [] := rfl

/-- C8: for every list of fragments, `encodeParams` returns the empty string
when the concatenation of the fragments is empty, and otherwise `?` followed by
the concatenation without its first byte; so when every fragment is empty or
begins with `&`, the result is empty or is the concatenation with its leading
`&` replaced by `?`. -/
theorem C8_encodeParams (objs : List GoString) :
    (objs.flatten = [] → encodeParams objs = [])
      ∧ (objs.flatten ≠ [] → encodeParams objs = lit "?" ++ objs.flatten.drop 1)
      ∧ ((∀ f ∈ objs, f = [] ∨ ∃ t, f = lit "&" ++ t) →
          encodeParams objs = []
            ∨ ∃ t, objs.flatten = lit "&" ++ t ∧ encodeParams objs = lit "?" ++ t) := by
  have h1 : objs.flatten = [] → encodeParams objs = [] := by
    intro h
    simp [encodeParams, h, lit_empty]
  have h2 : objs.flatten ≠ [] → encodeParams objs = lit "?" ++ objs.flatten.drop 1 := by
    intro h
    simp [encodeParams, h, lit_empty]
  refine ⟨h1, h2, ?_⟩
  intro hall
  by_cases he : objs.flatten = []
  · exact Or.inl (h1 he)
  · right
    have hhead : ∀ l : List GoString, (∀ f ∈ l, f = [] ∨ ∃ t, f = lit "&" ++ t) →
        l.flatten ≠ [] → ∃ t, l.flatten = lit "&" ++ t := by
      intro l
      induction l with
      | nil => intro _ h; exact absurd rfl h
      | cons f rest ih =>
        intro hl hne
        rcases hl f (List.mem_cons_self _ _) with hf | ⟨t, hf⟩
        · subst hf
          have hrest := ih (fun g hg => hl g (List.mem_cons_of_mem _ hg))
            (by simpa using hne)
          simpa using hrest
        · exact ⟨t ++ rest.flatten, by simp [hf]⟩
    obtain ⟨t, ht⟩ := hhead objs hall he
    refine ⟨t, ht, ?_⟩
    rw [h2 he, ht]
    rfl

/-- C8 (witness): three fragments, the first one empty. -/
theorem C8_encodeParams_witness :
    encodeParams [lit "", lit "&a=1", lit "&b=2"] = lit "?a=1&b=2" := by
  have h := (C8_encodeParams [lit "", lit "&a=1", lit "&b=2"]).2.1 (by decide)
  rw [h]
  decide

theorem toInt_of_range (v : Int) (hlo : -(2 ^ 63) ≤ v) (hhi : v < 2 ^ 63) : toInt v = v := by
  unfold toInt wrapSigned
  norm_num at hlo hhi ⊢
  omega

/-- C9: for every key name, value and default of the type of the encoder (a
boolean, or an integer in the range of `int8`, `int16`, `int32` or `int64`), the
emitted default-eliding encoder returns the empty string when the value equals
the default, and otherwise `&`, the name, `=` and the value rendered by `%v`
(`true` or `false`) or in base 10 (`-` before a negative number). -/
theorem C9_default_eliding_encoders (name : GoString) :
    (∀ v dflt : Bool, encodeBoolParam name v dflt
        = if v = dflt then [] else lit "&" ++ name ++ lit "=" ++ formatBool v)
      ∧ (∀ v dflt : Int, -(2 ^ 7) ≤ v → v < 2 ^ 7 → encodeInt8Param name v dflt
        = if v = dflt then [] else lit "&" ++ name ++ lit "=" ++ itoa v)
      ∧ (∀ v dflt : Int, -(2 ^ 15) ≤ v → v < 2 ^ 15 → encodeInt16Param name v dflt
        = if v = dflt then [] else lit "&" ++ name ++ lit "=" ++ itoa v)
      ∧ (∀ v dflt : Int, -(2 ^ 31) ≤ v → v < 2 ^ 31 → encodeInt32Param name v dflt
        = if v = dflt then [] else lit "&" ++ name ++ lit "=" ++ itoa v)
      ∧ (∀ v dflt : Int, -(2 ^ 63) ≤ v → v < 2 ^ 63 → encodeInt64Param name v dflt
        = if v = dflt then [] else lit "&" ++ name ++ lit "=" ++ itoa v) := by
  refine ⟨?_, ?_, ?_, ?_, ?_⟩
  · intro v dflt
    by_cases h : v = dflt <;> simp [encodeBoolParam, h, lit_empty]
  · intro v dflt hlo hhi
    have ht : toInt v = v := toInt_of_range v (by norm_num at hlo ⊢; omega)
      (by norm_num at hhi ⊢; omega)
    by_cases h : v = dflt <;> simp [encodeInt8Param, h, lit_empty, ht]
  · intro v dflt hlo hhi
    have ht : toInt v = v := toInt_of_range v (by norm_num at hlo ⊢; omega)
      (by norm_num at hhi ⊢; omega)
    by_cases h : v = dflt <;> simp [encodeInt16Param, h, lit_empty, ht]
  · intro v dflt hlo hhi
    have ht : toInt v = v := toInt_of_range v (by norm_num at hlo ⊢; omega)
      (by norm_num at hhi ⊢; omega)
    by_cases h : v = dflt <;> simp [encodeInt32Param, h, lit_empty, ht]
  · intro v dflt _ _
    by_cases h : v = dflt <;> simp [encodeInt64Param, h, lit_empty]

/-- C9 (witness): each encoder at a value equal to the default and at a value
different from it, with the rendering written out. -/
theorem C9_default_eliding_encoders_witness :
    encodeBoolParam (lit "all") true true = lit ""
      ∧ encodeBoolParam (lit "all") false true = lit "&all=false"
      ∧ encodeInt8Param (lit "n") (-5) 0 = lit "&n=-5"
      ∧ encodeInt16Param (lit "n") 1000 1000 = lit ""
      ∧ encodeInt32Param (lit "n") 2147483647 0 = lit "&n=2147483647"
      ∧ encodeInt64Param (lit "n") (-9223372036854775808) 0 = lit "&n=-9223372036854775808" := by
  have h := C9_default_eliding_encoders (lit "n")
  have hb := (C9_default_eliding_encoders (lit "all")).1
  refine ⟨?_, ?_, ?_, ?_, ?_, ?_⟩
  · rw [hb]; decide
  · rw [hb]; decide
  · rw [h.2.1 (-5) 0 (by decide) (by decide)]; decide
  · rw [h.2.2.1 1000 1000 (by decide) (by decide)]; decide
  · rw [h.2.2.2.1 2147483647 0 (by decide) (by decide)]; decide
  · rw [h.2.2.2.2 (-9223372036854775808) 0 (by decide) (by decide)]; decide

/-- C10 (as the code behaves): with an absent (`nil`) value the emitted
`encodeOptionalEnumParam` returns the two-byte string `""` (two double quotes),
not the empty string, while the Bool, Int32 and Int64 variants return the empty
string; `encodeParams` then turns that fragment into `?"`. -/
theorem C10_optional_enum_absent_is_not_empty :
    encodeOptionalEnumParam (lit "state") none = [34, 34]
      ∧ encodeOptionalEnumParam (lit "state") none ≠ []
      ∧ encodeOptionalBoolParam (lit "state") none = []
      ∧ encodeOptionalInt32Param (lit "state") none = []
      ∧ encodeOptionalInt64Param (lit "state") none = []
      ∧ encodeParams [encodeOptionalEnumParam (lit "state") none] = lit "?\""
      ∧ encodeOptionalEnumParam (lit "state") (some (lit "ACTIVE")) = lit "&state=ACTIVE" := by
  refine ⟨by decide, by decide, by decide, by decide, by decide, by decide, by decide⟩

/-! ## C11: the encoder of a query parameter -/

/-- C11: the text of `explodeURL` lists, inside `encodeParams(...)`, the item
`queryItem` of every query-parameter Input; and for every Input, with key
`QueryParam` and identifier `goName(Name)`, the item is: `encodeListParam` when
the type is an array type, optional or not; else `encodeOptional<Base>Param`
when the Input is optional and its base type is not `String`; else
`encodeStringParam` on `ident.String()` with the quoted default when the base
type is `Enum`; else `encode<Base>Param` on `<lower-cased base>(ident)` with the
default, which is the case of an optional `String` too. -/
theorem C11_encoder_selection (d : Deps) (r : Resource) (v : ResourceInput) :
    explodeURL d r
        = closePath ((r.Inputs.filter (fun v => v.PathParam)).foldl (pathStep d) r.Path)
          ++ (if r.Inputs.filter isQueryInput = [] then ""
              else " + encodeParams("
                ++ join ", " ((r.Inputs.filter isQueryInput).map (queryItem d)) ++ ")")
      ∧ (d.isArrayTypeName v.Type_ = true →
          queryItem d v
            = "encodeListParam(\"" ++ v.QueryParam ++ "\"," ++ d.goName v.Name ++ ")")
      ∧ (d.isArrayTypeName v.Type_ = false → v.Optional = true →
          d.baseTypeName v.Type_ ≠ "String" →
          queryItem d v
            = "encodeOptional" ++ d.baseTypeName v.Type_ ++ "Param(\"" ++ v.QueryParam
              ++ "\", " ++ d.goName v.Name ++ ")")
      ∧ (d.isArrayTypeName v.Type_ = false → v.Optional = false →
          d.baseTypeName v.Type_ = "Enum" →
          queryItem d v
            = "encodeStringParam(\"" ++ v.QueryParam ++ "\", " ++ d.goName v.Name
              ++ ".String(), " ++ ("\"" ++ goLiteral d v.Default "Enum" ++ "\"") ++ ")")
      ∧ (d.isArrayTypeName v.Type_ = false →
          (v.Optional = false ∨ d.baseTypeName v.Type_ = "String") →
          d.baseTypeName v.Type_ ≠ "Enum" →
          queryItem d v
            = "encode" ++ d.baseTypeName v.Type_ ++ "Param(\"" ++ v.QueryParam ++ "\", "
              ++ d.toLower (d.baseTypeName v.Type_) ++ "(" ++ d.goName v.Name ++ "), "
              ++ goLiteral d v.Default (d.baseTypeName v.Type_) ++ ")") := by
  refine ⟨explodeURL_eq d r, ?_, ?_, ?_, ?_⟩
  · intro ha
    simp [queryItem, ha]
  · intro ha ho hb
    simp [queryItem, ha, ho, hb]
  · intro ha ho hb
    simp [queryItem, ha, ho, hb]
  · intro ha ho hb
    rcases ho with ho | ho
    · simp [queryItem, ha, ho, hb]
    · have hne : ¬ ("String" = "Enum") := by decide
      simp [queryItem, ha, ho, hne]

/-- C11 (witness): the four rules at four Inputs, among them an optional array
and an optional `String`. -/
theorem C11_encoder_selection_witness :
    queryItem exampleDeps
        { Name := "tags", Type_ := "ArrayOfString", QueryParam := "tag", Optional := true }
        = "encodeListParam(\"tag\",tags)"
      ∧ queryItem exampleDeps limitInput = "encodeOptionalInt32Param(\"count\", limit)"
      ∧ queryItem exampleDeps
          { Name := "state", Type_ := "Enum", QueryParam := "st",
            Default := some (.other "ACTIVE") }
          = "encodeStringParam(\"st\", state.String(), \"ACTIVE\")"
      ∧ queryItem exampleDeps
          { Name := "filter", Type_ := "String", QueryParam := "q", Optional := true }
          = "encodeStringParam(\"q\", string(filter), \"\")" := by
  refine ⟨?_, ?_, ?_, ?_⟩
  · rw [(C11_encoder_selection exampleDeps searchResource _).2.1 (by decide)]
    decide
  · rw [(C11_encoder_selection exampleDeps searchResource _).2.2.1 (by decide) (by decide)
      (by decide)]
    decide
  · rw [(C11_encoder_selection exampleDeps searchResource _).2.2.2.1 (by decide) (by decide)
      (by decide)]
    decide
  · rw [(C11_encoder_selection exampleDeps searchResource _).2.2.2.2 (by decide)
      (Or.inr (by decide)) (by decide)]
    decide

/-! ## C12: the argument of `json.Marshal` -/

theorem bodyParam_eq_find (inputs : List ResourceInput) :
    bodyParam inputs
      = match inputs.find? isBodyCandidate with
        | some i => i.Name
        | none => "?" := by
  induction inputs with
  | nil => rfl
  | cons i rest ih =>
    by_cases h : isBodyCandidate i = true
    · have h2 := h
      simp only [isBodyCandidate] at h2
      simp [bodyParam, List.find?_cons, h, h2]
    · have h2 := h
      simp only [isBodyCandidate] at h2
      simp [bodyParam, List.find?_cons, h, h2, ih]

/-- C12: for every Resource whose method, lower-cased and capitalized, is `Put`,
`Post` or `Patch`, and whose first Input that is neither a path parameter, a
query parameter nor a header is `i`, the method body is the map `headers` and
the statement for `url`, followed by `contentBytes, err := json.Marshal(` with
the name of `i` and `)`, followed by the rest of the body, whatever Inputs come
after `i`. -/
theorem C12_marshal_first_body_candidate (d : Deps)
    (order : List (String × String) → List (String × String)) (r : Resource) (precise : Bool)
    (i : ResourceInput)
    (hm : d.capitalize (d.toLower r.Method) ∈ ["Put", "Post", "Patch"])
    (hfirst : r.Inputs.find? isBodyCandidate = some i) :
    ∃ rest, goMethodBody d order r precise
      = urlPrologue d order r ++ "\tcontentBytes, err := json.Marshal(" ++ i.Name ++ ")\n"
        ++ rest := by
  have hb : bodyParam r.Inputs = i.Name := by
    rw [bodyParam_eq_find, hfirst]
  have hreq : ∀ httpArg errRet, ∃ tail,
      (requestBlock (d.capitalize (d.toLower r.Method)) httpArg errRet r.Inputs).1
        = "\tcontentBytes, err := json.Marshal(" ++ i.Name ++ ")\n" ++ tail := by
    intro httpArg errRet
    refine ⟨"\tif err != nil \x7b\n\t\t" ++ errRet ++ "\n\t\x7d\n"
      ++ "\tresp, err := client.http" ++ d.capitalize (d.toLower r.Method) ++ "(" ++ httpArg
      ++ ", contentBytes)\n", ?_⟩
    simp only [List.mem_cons, List.mem_singleton, List.not_mem_nil, or_false] at hm
    have hcase : (requestBlock (d.capitalize (d.toLower r.Method)) httpArg errRet r.Inputs).1
        = "\tcontentBytes, err := json.Marshal(" ++ bodyParam r.Inputs ++ ")\n"
          ++ "\tif err != nil \x7b\n\t\t" ++ errRet ++ "\n\t\x7d\n"
          ++ "\tresp, err := client.http" ++ d.capitalize (d.toLower r.Method) ++ "(" ++ httpArg
          ++ ", contentBytes)\n" := by
      rcases hm with h | h | h <;> rw [h] <;> rfl
    rw [hcase, hb]
    apply String.ext
    simp only [String.data_append, List.append_assoc]
  unfold goMethodBody urlPrologue
  simp only
  obtain ⟨tail, ht⟩ := hreq (if (headersOf r).length > 0 then "url, headers" else "url, nil")
    (errorReturn r)
  rw [ht]
  simp only [String.append_assoc]
  exact ⟨_, rfl⟩

/-- C12 (witness): the theorem at `searchResource`, a `POST` whose Inputs are a
path parameter, a header, a query parameter, the body Input `query` and another
query parameter. -/
theorem C12_marshal_first_body_candidate_witness :
    ∃ rest, goMethodBody exampleDeps id searchResource false
      = urlPrologue exampleDeps id searchResource
        ++ "\tcontentBytes, err := json.Marshal(" ++ "query" ++ ")\n" ++ rest :=
  C12_marshal_first_body_candidate exampleDeps id searchResource false
    { Name := "query", Type_ := "Query" } (by decide) (by decide)

/-! ## C13: determinism of the method body -/

theorem headersBlock_eq (d : Deps) (order : List (String × String) → List (String × String))
    (m : List (String × String)) (h : (order m).Perm m) :
    headersBlock d order m
      = (if m.length > 0 then "\theaders := map[string]string\x7b\n" else "")
        ++ concat ((order m).map (headerLine d))
        ++ (if m.length > 0 then "\t\x7d\n" else "") := by
  unfold headersBlock
  by_cases hm : m.length > 0
  · simp only [hm, if_true]
    have hf := foldl_append_eq (headerLine d) (order m) ""
    simp only [headerLine, String.empty_append] at hf ⊢
    rw [hf]
  · have hm0 : m = [] := by
      cases m with
      | nil => rfl
      | cons a l => simp at hm
    subst hm0
    have ho : order [] = [] := List.Perm.eq_nil h
    simp [ho, concat]

/-- C13 (counterexample): for the Resource `twoHeaderResource`, with two
header-carried Inputs, the run that visits the map `headers` in one order and
the run that visits it in the reverse order, both permutations of its entries,
produce different texts. -/
theorem C13_header_order_counterexample :
    (headersOf twoHeaderResource).length = 2
      ∧ (id (headersOf twoHeaderResource)).Perm (headersOf twoHeaderResource)
      ∧ (List.reverse (headersOf twoHeaderResource)).Perm (headersOf twoHeaderResource)
      ∧ goMethodBody exampleDeps id twoHeaderResource false
          ≠ goMethodBody exampleDeps List.reverse twoHeaderResource false :=
  ⟨by decide, List.Perm.refl _, List.reverse_perm _, by decide⟩

/-- C13 (amended): for every Resource there are a text before and a text after
the entries of the map `headers` such that every run produces the first text,
the lines of the entries in the order in which the run visits the map, and the
second text; the lines of two runs are a permutation of each other, and two
runs produce the same text when the map has at most one entry. -/
theorem C13_deterministic_up_to_header_order (d : Deps) (r : Resource) (precise : Bool) :
    ∃ pre post,
      (∀ order, IsMapOrder order →
        goMethodBody d order r precise
          = pre ++ concat ((order (headersOf r)).map (headerLine d)) ++ post)
      ∧ ∀ order1 order2, IsMapOrder order1 → IsMapOrder order2 →
          ((order1 (headersOf r)).map (headerLine d)).Perm
              ((order2 (headersOf r)).map (headerLine d))
            ∧ ((headersOf r).length ≤ 1 →
                goMethodBody d order1 r precise = goMethodBody d order2 r precise) := by
  have hbody : ∃ rest, ∀ o2 : List (String × String) → List (String × String),
      goMethodBody d o2 r precise = headersBlock d o2 (headersOf r) ++ rest := by
    unfold goMethodBody
    simp only [String.append_assoc]
    exact ⟨_, fun o2 => rfl⟩
  obtain ⟨rest, hrest⟩ := hbody
  refine ⟨(if (headersOf r).length > 0 then "\theaders := map[string]string\x7b\n" else ""),
    (if (headersOf r).length > 0 then "\t\x7d\n" else "") ++ rest, ?_, ?_⟩
  · intro order ho
    rw [hrest order, headersBlock_eq d order _ (ho _)]
    simp only [String.append_assoc]
  · intro order1 order2 h1 h2
    refine ⟨((h1 _).trans (h2 _).symm).map _, ?_⟩
    intro hlen
    have heq : order1 (headersOf r) = order2 (headersOf r) := by
      have p := (h1 (headersOf r)).trans (h2 (headersOf r)).symm
      cases hm : headersOf r with
      | nil =>
        rw [hm] at p
        have a1 := List.Perm.eq_nil (h1 [])
        have a2 := List.Perm.eq_nil (h2 [])
        rw [a1, a2]
      | cons a l =>
        have hl : l = [] := by
          rw [hm] at hlen
          cases l with
          | nil => rfl
          | cons b l2 => simp at hlen
        subst hl
        have a1 := List.perm_singleton.mp (h1 [a])
        have a2 := List.perm_singleton.mp (h2 [a])
        rw [a1, a2]
    rw [hrest order1, hrest order2, headersBlock_eq d order1 _ (h1 _),
      headersBlock_eq d order2 _ (h2 _), heq]

/-- C13 (witness): the theorem at `twoHeaderResource`, for the run that visits
the map in its order and the run that visits it in the reverse order. -/
theorem C13_deterministic_up_to_header_order_witness :
    IsMapOrder id ∧ IsMapOrder List.reverse
      ∧ ∃ pre post,
          goMethodBody exampleDeps id twoHeaderResource false
            = pre ++ concat ((id (headersOf twoHeaderResource)).map (headerLine exampleDeps))
              ++ post
          ∧ goMethodBody exampleDeps List.reverse twoHeaderResource false
            = pre ++ concat ((List.reverse (headersOf twoHeaderResource)).map
                (headerLine exampleDeps)) ++ post := by
  have hid : IsMapOrder id := fun m => List.Perm.refl m
  have hrev : IsMapOrder List.reverse := fun m => List.reverse_perm m
  obtain ⟨pre, post, h, _⟩ := C13_deterministic_up_to_header_order exampleDeps twoHeaderResource
    false
  exact ⟨hid, hrev, pre, post, h id hid, h List.reverse hrev⟩

/-! ## C14: the error of `GenerateGoClient` -/

/-- C14 (as the code behaves): when the output writer was opened,
`GenerateGoClient` returns `nil` whatever `t.Execute` returned, also when
`emitClient` returns a non-nil error; `emitClient` itself returns that error. -/
theorem C14_render_error_is_dropped (d : Deps) (schemaName : String) (execute : Option String)
    (gen : clientGenerator) :
    GenerateGoClient d schemaName none execute = none
      ∧ (emitClient gen execute).2 = execute
      ∧ GenerateGoClient exampleDeps "store" none (some "write store_client.go: no space left")
          = none := by
  refine ⟨rfl, rfl, rfl⟩

/-! ## C15: the authentication header -/

theorem lit_append (a b : String) : lit (a ++ b) = lit a ++ lit b := by
  simp [lit, String.data_append]

theorem canonicalBytes_length (upper : Bool) (s : GoString) :
    (canonicalBytes upper s).length = s.length := by
  induction s generalizing upper with
  | nil => rfl
  | cons c cs ih => simp [canonicalBytes, ih]

theorem canonicalMIMEHeaderKey_length (s : GoString) :
    (canonicalMIMEHeaderKey s).length = s.length := by
  unfold canonicalMIMEHeaderKey
  split
  · exact canonicalBytes_length true s
  · rfl

theorem headerValues_add_same (h : RequestHeader) (key value : GoString) :
    headerValues (headerAdd h key value) key = headerValues h key ++ [value] := by
  simp [headerValues, headerAdd, List.filter_append]

theorem headerValues_add_other (h : RequestHeader) (key other value : GoString)
    (hne : canonicalMIMEHeaderKey key ≠ canonicalMIMEHeaderKey other) :
    headerValues (headerAdd h key value) other = headerValues h other := by
  simp [headerValues, headerAdd, List.filter_append, hne]

/-- C15: with both credentials set, `addAuthHeader` adds, for a header name
`Cookie.` followed by `n`, the one header `Cookie` with value `n`, `=` and the
token, and no value to the header of that header name; for a header name that
does not start with `Cookie.`, the token as one more value of the header of that
name, stored as `http.Header.Add` stores it, under the canonical form of the
name; and with a credential unset it leaves the header of the request
unchanged. -/
theorem C15_addAuthHeader (header : RequestHeader) (token : GoString) :
    (∀ n : GoString,
        addAuthHeader { CredsHeader := some (lit "Cookie." ++ n), CredsToken := some token }
            header
          = header ++ [(lit "Cookie", n ++ lit "=" ++ token)]
        ∧ lit "Cookie" ≠ lit "Cookie." ++ n
        ∧ canonicalMIMEHeaderKey (lit "Cookie." ++ n) ≠ lit "Cookie"
        ∧ headerValues
            (addAuthHeader { CredsHeader := some (lit "Cookie." ++ n), CredsToken := some token }
              header) (lit "Cookie")
          = headerValues header (lit "Cookie") ++ [n ++ lit "=" ++ token]
        ∧ headerValues
            (addAuthHeader { CredsHeader := some (lit "Cookie." ++ n), CredsToken := some token }
              header) (lit "Cookie." ++ n)
          = headerValues header (lit "Cookie." ++ n))
      ∧ (∀ name : GoString, ¬ lit "Cookie." <+: name →
          addAuthHeader { CredsHeader := some name, CredsToken := some token } header
            = header ++ [(canonicalMIMEHeaderKey name, token)]
          ∧ headerValues
              (addAuthHeader { CredsHeader := some name, CredsToken := some token } header) name
            = headerValues header name ++ [token]
          ∧ ∀ other : GoString,
              canonicalMIMEHeaderKey other ≠ canonicalMIMEHeaderKey name →
              headerValues
                  (addAuthHeader { CredsHeader := some name, CredsToken := some token } header)
                  other
                = headerValues header other)
      ∧ (∀ client : Credentials, client.CredsHeader = none ∨ client.CredsToken = none →
          addAuthHeader client header = header) := by
  have hcookie : canonicalMIMEHeaderKey (lit "Cookie") = lit "Cookie" := by decide
  refine ⟨?_, ?_, ?_⟩
  · intro n
    have hp : (lit "Cookie.").isPrefixOf (lit "Cookie." ++ n) = true :=
      List.isPrefixOf_iff_prefix.mpr (List.prefix_append _ _)
    have hd : (lit "Cookie." ++ n).drop 7 = n := List.drop_left' rfl
    have hadd : addAuthHeader
          { CredsHeader := some (lit "Cookie." ++ n), CredsToken := some token } header
        = headerAdd header (lit "Cookie") (n ++ lit "=" ++ token) := by
      simp only [addAuthHeader, hp, if_true, hd]
    have hcanon : canonicalMIMEHeaderKey (lit "Cookie." ++ n) ≠ lit "Cookie" := by
      intro h
      have hl := congrArg List.length h
      rw [canonicalMIMEHeaderKey_length, List.length_append] at hl
      have h7 : (lit "Cookie.").length = 7 := by decide
      have h6 : (lit "Cookie").length = 6 := by decide
      omega
    refine ⟨?_, ?_, hcanon, ?_, ?_⟩
    · rw [hadd, headerAdd, hcookie]
    · intro h
      have hl := congrArg List.length h
      rw [List.length_append] at hl
      have h7 : (lit "Cookie.").length = 7 := by decide
      have h6 : (lit "Cookie").length = 6 := by decide
      omega
    · rw [hadd, headerValues_add_same]
    · rw [hadd, headerValues_add_other]
      rw [hcookie]
      exact fun h => hcanon h.symm
  · intro name hn
    have hp : (lit "Cookie.").isPrefixOf name = false := by
      rw [Bool.eq_false_iff]
      exact fun e => hn (List.isPrefixOf_iff_prefix.mp e)
    have hadd : addAuthHeader { CredsHeader := some name, CredsToken := some token } header
        = headerAdd header name token := by
      simp [addAuthHeader, hp]
    refine ⟨?_, ?_, ?_⟩
    · rw [hadd, headerAdd]
    · rw [hadd, headerValues_add_same]
    · intro other hne
      rw [hadd, headerValues_add_other]
      exact fun h => hne h.symm
  · intro client hc
    rcases hc with hc | hc
    · simp [addAuthHeader, hc]
    · cases hh : client.CredsHeader <;> simp [addAuthHeader, hc, hh]

/-- C15 (witness): a cookie credential, a header credential whose name is not
in canonical form, and a client without token, on a request that has a header
already. -/
theorem C15_addAuthHeader_witness :
    addAuthHeader { CredsHeader := some (lit "Cookie.session"), CredsToken := some (lit "t0k") }
        [(lit "Accept", lit "*/*")]
        = [(lit "Accept", lit "*/*"), (lit "Cookie", lit "session=t0k")]
      ∧ addAuthHeader { CredsHeader := some (lit "x-auth"), CredsToken := some (lit "t0k") }
          [(lit "Accept", lit "*/*")]
        = [(lit "Accept", lit "*/*"), (lit "X-Auth", lit "t0k")]
      ∧ headerValues
          (addAuthHeader { CredsHeader := some (lit "x-auth"), CredsToken := some (lit "t0k") }
            [(lit "Accept", lit "*/*")]) (lit "x-auth")
        = [lit "t0k"]
      ∧ addAuthHeader { CredsHeader := some (lit "X-Auth"), CredsToken := none }
          [(lit "Accept", lit "*/*")]
        = [(lit "Accept", lit "*/*")] := by
  have h := C15_addAuthHeader [(lit "Accept", lit "*/*")] (lit "t0k")
  refine ⟨?_, ?_, ?_, ?_⟩
  · have h1 := (h.1 (lit "session")).1
    have e : lit "Cookie." ++ lit "session" = lit "Cookie.session" := by decide
    rw [e] at h1
    rw [h1]
    decide
  · rw [(h.2.1 (lit "x-auth") (by decide)).1]
    decide
  · rw [(h.2.1 (lit "x-auth") (by decide)).2.1]
    decide
  · exact h.2.2 { CredsHeader := some (lit "X-Auth"), CredsToken := none } (Or.inr rfl)

/-! ## C16: the default of an enum query parameter -/

/-- C16 (as the code behaves): for the required enum query parameter
`enumNoDefaultInput`, with no default, the third argument of the emitted
`encodeStringParam` is `""""`, four quotes, which is not a single string
literal: `goLiteral` returns `""` for the absent default and `explodeURL` puts
it between quotes again.  With the default `ACTIVE` the third argument is the
literal `"ACTIVE"`, and the second argument is the identifier with `.String()`. -/
theorem C16_enum_without_default_is_quoted_twice :
    goLiteral exampleDeps none "Enum" = "\"\""
      ∧ queryItem exampleDeps enumNoDefaultInput
          = "encodeStringParam(\"st\", state.String(), " ++ "\"\"\"\"" ++ ")"
      ∧ isStringLiteral "\"\"\"\"" = false
      ∧ isStringLiteral "\"\"" = true
      ∧ queryItem exampleDeps enumDefaultInput
          = "encodeStringParam(\"st\", state.String(), " ++ "\"ACTIVE\"" ++ ")"
      ∧ isStringLiteral "\"ACTIVE\"" = true := by
  refine ⟨by decide, by decide, by decide, by decide, by decide, by decide⟩

/-! ## C17: the number of values of the return statements -/

/-- C17 (as the code behaves): for the Resource `noContentOutputResource`, which
expects `NO_CONTENT` with no alternatives and declares one Output, the return
type of the signature is `error`, one entry, while the error return, the
success return and the return of the default branch of the body have three
values each; and the success return names `data` although the body declares no
`var data`. -/
theorem C17_no_content_with_output_return_counts :
    goMethodSignature exampleDeps noContentOutputResource false = "DeleteItem(id String) error"
      ∧ valueCount (returnSpec exampleDeps noContentOutputResource false) = 1
      ∧ errorReturn noContentOutputResource = "return nil, \"\", err"
      ∧ valueCount (errorReturn noContentOutputResource) = 3
      ∧ dataReturn exampleDeps noContentOutputResource = "return data, tag, nil"
      ∧ valueCount (dataReturn exampleDeps noContentOutputResource) = 3
      ∧ decodeBlock noContentOutputResource = ""
      ∧ goMethodBody exampleDeps id noContentOutputResource false
          = "\turl := client.URL + \"/item/\" + id\n"
            ++ "\tresp, err := client.httpDelete(url, nil)\n"
            ++ "\tif err != nil \x7b\n\t\treturn nil, \"\", err\n\t\x7d\n"
            ++ "\tcontentBytes, err := ioutil.ReadAll(resp.Body)\n"
            ++ "\tresp.Body.Close()\n"
            ++ "\tif err != nil \x7b\n\t\treturn nil, \"\", err\n\t\x7d\n"
            ++ "\tswitch resp.StatusCode \x7b\n"
            ++ "\tcase 204:\n"
            ++ "\t\ttag := resp.Header.Get(rdl.FoldHttpHeaderName(\"ETag\"))\n"
            ++ "\t\treturn data, tag, nil\n"
            ++ "\tdefault:\n"
            ++ "\t\tvar errobj rdl.ResourceError\n"
            ++ "\t\tjson.Unmarshal(contentBytes, &errobj)\n"
            ++ "\t\tif errobj.Code == 0 \x7b\n"
            ++ "\t\t\terrobj.Code = resp.StatusCode\n"
            ++ "\t\t\x7d\n"
            ++ "\t\tif errobj.Message == \"\" \x7b\n"
            ++ "\t\t\terrobj.Message = string(contentBytes)\n"
            ++ "\t\t\x7d\n"
            ++ "\t\treturn nil, \"\", errobj\n"
            ++ "\t\x7d" := by
  refine ⟨by decide, by decide, by decide, by decide, by decide, by decide, by decide,
    by decide⟩

/-! ## C18: the helpers that the generated methods call -/

/-- C18 (as the code behaves): of the methods that `goMethodBody` handles,
`clientTemplate` defines no `httpPatch`; it defines `encode<Base>Param` for each
of the seven base types, but no `encodeOptional<Base>Param` for `Int8`, `Int16`,
`Float32` and `Float64`; and the body of the `PATCH` Resource `patchResource`
calls `client.httpPatch` and `encodeOptionalInt8Param`. -/
theorem C18_helpers_missing_from_template :
    handledMethods.filter (fun m => !clientTemplateFunctions.contains ("http" ++ m)) = ["Patch"]
      ∧ encoderBaseTypes.filter
          (fun b => !clientTemplateFunctions.contains ("encode" ++ b ++ "Param")) = []
      ∧ encoderBaseTypes.filter
          (fun b => !clientTemplateFunctions.contains ("encodeOptional" ++ b ++ "Param"))
          = ["Int8", "Int16", "Float32", "Float64"]
      ∧ clientTemplateFunctions.contains "encodeStringParam" = true
      ∧ clientTemplateFunctions.contains "encodeOptionalEnumParam" = true
      ∧ goMethodBody exampleDeps id patchResource false
          = "\turl := client.URL + \"/item/\" + id"
            ++ " + encodeParams(encodeOptionalInt8Param(\"depth\", depth))\n"
            ++ "\tcontentBytes, err := json.Marshal(item)\n"
            ++ "\tif err != nil \x7b\n\t\treturn nil, err\n\t\x7d\n"
            ++ "\tresp, err := client.httpPatch(url, nil, contentBytes)\n"
            ++ "\tif err != nil \x7b\n\t\treturn nil, err\n\t\x7d\n"
            ++ "\tcontentBytes, err = ioutil.ReadAll(resp.Body)\n"
            ++ "\tresp.Body.Close()\n"
            ++ "\tif err != nil \x7b\n\t\treturn nil, err\n\t\x7d\n"
            ++ "\tswitch resp.StatusCode \x7b\n"
            ++ "\tcase 200:\n"
            ++ "\t\tvar data *Item\n"
            ++ "\t\terr = json.Unmarshal(contentBytes, &data)\n"
            ++ "\t\tif err != nil \x7b\n\t\t\treturn nil, err\n\t\t\x7d\n"
            ++ "\t\treturn data, nil\n"
            ++ "\tdefault:\n"
            ++ "\t\tvar errobj rdl.ResourceError\n"
            ++ "\t\tjson.Unmarshal(contentBytes, &errobj)\n"
            ++ "\t\tif errobj.Code == 0 \x7b\n"
            ++ "\t\t\terrobj.Code = resp.StatusCode\n"
            ++ "\t\t\x7d\n"
            ++ "\t\tif errobj.Message == \"\" \x7b\n"
            ++ "\t\t\terrobj.Message = string(contentBytes)\n"
            ++ "\t\t\x7d\n"
            ++ "\t\treturn nil, errobj\n"
            ++ "\t\x7d" := by
  refine ⟨by decide, by decide, by decide, by decide, by decide, by decide⟩

/-! ## C19: the text of a default -/

theorem itoa_eq_toString (v : Int) : itoa v = lit (toString v) := by
  cases v with
  | ofNat n => rfl
  | negSucc n =>
    show lit "-" ++ lit (Nat.repr (n + 1)) = lit ("-" ++ Nat.repr (n + 1))
    rw [lit_append]

/-- C19: `goLiteral` gives, for an absent default, `false` for `Bool`, `0` for
the four integer types, `0.0` for the two float types and `""` for every other
base type; for a string default its `%q` rendering; for an integer default of
any width its decimal text, which is the text that `strconv.Itoa` gives at run
time.  Hence the item of a required, non-array query parameter with no default
passes `false`, `0` or `0.0` as the default, and the emitted encoder with that
default returns the empty string exactly when the value is `false`, is zero, or
compares equal to the zero of its float type. -/
theorem C19_goLiteral_defaults (d : Deps) (v : ResourceInput) (name : GoString) :
    (∀ base : String, goLiteral d none base
        = if base = "Bool" then "false"
          else if base ∈ ["Int32", "Int64", "Int16", "Int8"] then "0"
          else if base ∈ ["Float64", "Float32"] then "0.0"
          else "\"\"")
      ∧ (∀ (text base : String), goLiteral d (some (.str text)) base = d.quote text)
      ∧ (∀ (i : Int) (base : String),
          goLiteral d (some (.int8 i)) base = toString i
            ∧ goLiteral d (some (.int16 i)) base = toString i
            ∧ goLiteral d (some (.int32 i)) base = toString i
            ∧ goLiteral d (some (.int64 i)) base = toString i
            ∧ lit (toString i) = itoa i)
      ∧ (d.isArrayTypeName v.Type_ = false → v.Optional = false → v.Default = none →
          d.baseTypeName v.Type_ ∈ ["Bool", "Int8", "Int16", "Int32", "Int64", "Float32",
            "Float64"] →
          queryItem d v
            = "encode" ++ d.baseTypeName v.Type_ ++ "Param(\"" ++ v.QueryParam ++ "\", "
              ++ d.toLower (d.baseTypeName v.Type_) ++ "(" ++ d.goName v.Name ++ "), "
              ++ (if d.baseTypeName v.Type_ = "Bool" then "false"
                  else if d.baseTypeName v.Type_ ∈ ["Float32", "Float64"] then "0.0"
                  else "0") ++ ")")
      ∧ (∀ b : Bool, encodeBoolParam name b false = [] ↔ b = false)
      ∧ (∀ i : Int, (encodeInt8Param name i 0 = [] ↔ i = 0)
          ∧ (encodeInt16Param name i 0 = [] ↔ i = 0)
          ∧ (encodeInt32Param name i 0 = [] ↔ i = 0)
          ∧ (encodeInt64Param name i 0 = [] ↔ i = 0))
      ∧ (∀ (F : Type) (ops : FloatOps F) (x zero : F),
          (encodeFloat32Param ops name x zero = [] ↔ ops.eq x zero = true)
            ∧ (encodeFloat64Param ops name x zero = [] ↔ ops.eq x zero = true)) := by
  refine ⟨?_, ?_, ?_, ?_, ?_, ?_, ?_⟩
  · intro base
    by_cases h1 : base = "Bool"
    · subst h1
      rfl
    · by_cases h2 : base ∈ ["Int32", "Int64", "Int16", "Int8"]
      · simp only [List.mem_cons, List.mem_singleton, List.not_mem_nil, or_false] at h2
        rcases h2 with h | h | h | h <;> subst h <;> rfl
      · by_cases h3 : base ∈ ["Float64", "Float32"]
        · simp only [List.mem_cons, List.mem_singleton, List.not_mem_nil, or_false] at h3
          rcases h3 with h | h <;> subst h <;> rfl
        · rw [if_neg h1, if_neg h2, if_neg h3]
          simp only [List.mem_cons, List.mem_singleton, List.not_mem_nil, or_false,
            not_or] at h2 h3
          simp [goLiteral, h1, h2, h3]
  · intro text base
    rfl
  · intro i base
    exact ⟨rfl, rfl, rfl, rfl, (itoa_eq_toString i).symm⟩
  · intro ha ho hd hb
    simp only [List.mem_cons, List.mem_singleton, List.not_mem_nil, or_false] at hb
    rcases hb with h | h | h | h | h | h | h <;>
      simp [queryItem, ha, ho, hd, h, goLiteral]
  · intro b
    cases b
    · simp [encodeBoolParam, lit_empty]
    · have hamp : ¬ lit "&" = [] := by decide
      simp [encodeBoolParam, hamp]
  · intro i
    have hamp : ¬ lit "&" = [] := by decide
    by_cases h : i = 0
    · subst h
      simp [encodeInt8Param, encodeInt16Param, encodeInt32Param, encodeInt64Param, lit_empty]
    · simp [encodeInt8Param, encodeInt16Param, encodeInt32Param, encodeInt64Param, h, hamp]
  · intro F ops x zero
    have hamp : ¬ lit "&" = [] := by decide
    by_cases h : ops.eq x zero = true
    · simp [encodeFloat32Param, encodeFloat64Param, h, lit_empty]
    · simp [encodeFloat32Param, encodeFloat64Param, h, hamp]

/-- C19 (witness): the item of the required `Bool` parameter
`boolNoDefaultInput`, and the texts of a negative integer default and of the
absent default of an enum type. -/
theorem C19_goLiteral_defaults_witness :
    queryItem exampleDeps boolNoDefaultInput = "encodeBoolParam(\"all\", bool(all), false)"
      ∧ goLiteral exampleDeps (some (.int32 (-42))) "Int32" = "-42"
      ∧ goLiteral exampleDeps none "Enum" = "\"\""
      ∧ (encodeBoolParam (lit "all") true false = lit "&all=true") := by
  have h := C19_goLiteral_defaults exampleDeps boolNoDefaultInput (lit "all")
  refine ⟨?_, ?_, ?_, by decide⟩
  · rw [h.2.2.2.1 (by decide) (by decide) (by decide) (by decide)]
    decide
  · rw [(h.2.2.1 (-42) "Int32").2.2.1]
    decide
  · rw [h.1 "Enum"]
    decide

/-! ## C20: `camelSnakeToKebab` -/

/-- C20 (as the code behaves): `camelSnakeToKebab` turns `foo_Bar` into
`foo--bar`, with two adjacent hyphens: the hyphen that replaces the underscore
sets `wasLower`, and the upper-case letter after it gets a second hyphen.  The
names `fooBar`, `foo_bar` and `HTTPServer` give `foo-bar`, `foo-bar` and
`httpserver`. -/
theorem C20_underscore_before_capital_gives_two_hyphens :
    camelSnakeToKebab asciiUnicode "foo_Bar" = "foo--bar"
      ∧ javaGenerationRootPath asciiUnicode "foo_Bar" (some 1) "" = "/foo--bar/v1"
      ∧ camelSnakeToKebab asciiUnicode "fooBar" = "foo-bar"
      ∧ camelSnakeToKebab asciiUnicode "foo_bar" = "foo-bar"
      ∧ camelSnakeToKebab asciiUnicode "HTTPServer" = "httpserver" := by
  refine ⟨by decide, by decide, by decide, by decide, by decide⟩

end GoClient
